import Mathlib

/-!
Verification of the core of the `delinoio/oss` repository: a Node.js runtime
manager (`nodeup`) and a companion monorepo release tool (`cargo-mono`).

Rust strings are modelled as `List Char` (abbreviated `Str`), Rust `u64`
arithmetic as `Nat` (the parsers enforce the `2 ^ 64` bound where the source
does), and fallible Rust functions as `Except`/`Option` values.  Every
definition is transcribed from the corresponding Rust source function; doc
comments name the source location.
-/

set_option maxHeartbeats 1000000

namespace Oss

/-- Rust `String` / `&str`, modelled as a list of characters. -/
abbrev Str := List Char

/-- ASCII whitespace test used by the model of Rust's `str::trim`. -/
def isWs (c : Char) : Bool :=
  c.toNat = 32 || c.toNat = 9 || c.toNat = 10 || c.toNat = 13

/-- Model of Rust `str::trim`: drop whitespace from both ends. -/
def rustTrim (l : Str) : Str :=
  ((l.dropWhile isWs).reverse.dropWhile isWs).reverse

/-- Rust `char::is_ascii_digit`. -/
def isDigitChar (c : Char) : Bool :=
  48 ≤ c.toNat && c.toNat ≤ 57

/-- Rust `char::is_ascii_alphanumeric`. -/
def isAlnumChar (c : Char) : Bool :=
  (48 ≤ c.toNat && c.toNat ≤ 57) || (97 ≤ c.toNat && c.toNat ≤ 122) ||
    (65 ≤ c.toNat && c.toNat ≤ 90)

/-- Character set of semver prerelease/build identifiers:
ASCII alphanumerics and hyphen. -/
def isIdentChar (c : Char) : Bool :=
  isAlnumChar c || c = '-'

/-- Numeric value of a decimal digit character. -/
def digitVal (c : Char) : Nat := c.toNat - 48

/-- Decimal digit character for a value below ten. -/
def digitChar : Nat → Char
  | 0 => '0'
  | 1 => '1'
  | 2 => '2'
  | 3 => '3'
  | 4 => '4'
  | 5 => '5'
  | 6 => '6'
  | 7 => '7'
  | 8 => '8'
  | _ => '9'

/-- Little-endian decimal digit characters of `n` (empty for zero);
`fuel`-guarded structural recursion, `fuel = n` always suffices. -/
def natDigitsAux : Nat → Nat → Str
  | 0, _ => []
  | _ + 1, 0 => []
  | fuel + 1, n => digitChar (n % 10) :: natDigitsAux fuel (n / 10)

/-- Decimal rendering of a natural number, as Rust's `u64` `Display` prints it. -/
def natToChars (n : Nat) : Str :=
  if n = 0 then ['0'] else (natDigitsAux n n).reverse

/-- Decimal value of a digit string (most significant digit first),
as Rust's digit-accumulation loop computes it. -/
def charsToNat (l : Str) : Nat :=
  l.foldl (fun a c => 10 * a + digitVal c) 0

/-- Split a character list at every occurrence of `c`
(model of `str::split(c)` / `splitn`). -/
def splitOnChar (c : Char) : Str → List Str
  | [] => [[]]
  | x :: xs =>
    if x = c then [] :: splitOnChar c xs
    else match splitOnChar c xs with
      | [] => [[x]]
      | p :: ps => (x :: p) :: ps

/-- Split at the first occurrence of `c`, if any:
returns the part before it and, when present, the part after it. -/
def splitFirst (c : Char) : Str → Str × Option Str
  | [] => ([], none)
  | x :: xs =>
    if x = c then ([], some xs)
    else
      let r := splitFirst c xs
      (x :: r.1, r.2)

/-! ### Basic lemmas about the string helpers -/

theorem toNat_ne_of_ne {c d : Char} (h : c.toNat ≠ d.toNat) : c ≠ d :=
  fun he => h (congrArg Char.toNat he)

theorem digitVal_digitChar {d : Nat} (h : d < 10) : digitVal (digitChar d) = d := by
  interval_cases d <;> rfl

theorem isDigitChar_digitChar {d : Nat} (h : d < 10) : isDigitChar (digitChar d) = true := by
  interval_cases d <;> rfl

theorem toNat_of_isDigitChar {c : Char} (h : isDigitChar c = true) :
    48 ≤ c.toNat ∧ c.toNat ≤ 57 := by
  simp only [isDigitChar, Bool.and_eq_true, decide_eq_true_eq] at h
  exact h

theorem valLE_natDigitsAux : ∀ fuel n, n ≤ fuel →
    (natDigitsAux fuel n).foldr (fun c a => 10 * a + digitVal c) 0 = n := by
  intro fuel
  induction fuel with
  | zero => intro n hn; interval_cases n; rfl
  | succ f ih =>
    intro n hn
    match n with
    | 0 => rfl
    | m + 1 =>
      have hdiv : (m + 1) / 10 ≤ f := by
        have h1 : (m + 1) / 10 < m + 1 := Nat.div_lt_self (Nat.succ_pos m) (by omega)
        omega
      simp only [natDigitsAux, List.foldr_cons, ih _ hdiv,
        digitVal_digitChar (Nat.mod_lt _ (by omega))]
      omega

theorem charsToNat_natToChars {n : Nat} : charsToNat (natToChars n) = n := by
  by_cases h : n = 0
  · subst h; rfl
  · simp only [natToChars, if_neg h, charsToNat, List.foldl_reverse]
    exact valLE_natDigitsAux n n (Nat.le_refl n)

theorem mem_natDigitsAux_isDigit : ∀ fuel n c, c ∈ natDigitsAux fuel n →
    isDigitChar c = true := by
  intro fuel
  induction fuel with
  | zero => intro n c hc; simp [natDigitsAux] at hc
  | succ f ih =>
    intro n c hc
    match n with
    | 0 => simp [natDigitsAux] at hc
    | m + 1 =>
      simp only [natDigitsAux, List.mem_cons] at hc
      rcases hc with h | h
      · subst h; exact isDigitChar_digitChar (Nat.mod_lt _ (by omega))
      · exact ih _ _ h

theorem mem_natToChars_isDigit {n : Nat} {c : Char} (hc : c ∈ natToChars n) :
    isDigitChar c = true := by
  by_cases h : n = 0
  · subst h
    simp only [natToChars, if_pos trivial, List.mem_singleton] at hc
    subst hc; rfl
  · simp only [natToChars, if_neg h, List.mem_reverse] at hc
    exact mem_natDigitsAux_isDigit n n c hc

theorem natDigitsAux_zero (fuel : Nat) : natDigitsAux fuel 0 = [] := by
  cases fuel <;> rfl

theorem natDigitsAux_ne_nil {fuel n : Nat} (h1 : 1 ≤ n) (h2 : n ≤ fuel) :
    natDigitsAux fuel n ≠ [] := by
  match fuel, n with
  | 0, m => omega
  | f + 1, 0 => omega
  | f + 1, m + 1 => simp [natDigitsAux]

theorem natToChars_ne_nil {n : Nat} : natToChars n ≠ [] := by
  by_cases h : n = 0
  · subst h; simp [natToChars]
  · simp only [natToChars, if_neg h]
    intro hrev
    exact natDigitsAux_ne_nil (by omega) (Nat.le_refl n) (List.reverse_eq_nil_iff.mp hrev)

theorem getLast?_cons_of_ne_nil {α : Type} {x : α} {l : List α} (h : l ≠ []) :
    (x :: l).getLast? = l.getLast? := by
  cases l with
  | nil => exact absurd rfl h
  | cons y t => exact List.getLast?_cons_cons

theorem getLast?_natDigitsAux : ∀ fuel n, 1 ≤ n → n ≤ fuel →
    ∃ d, 1 ≤ d ∧ d < 10 ∧ (natDigitsAux fuel n).getLast? = some (digitChar d) := by
  intro fuel
  induction fuel with
  | zero => intro n h1 h2; omega
  | succ f ih =>
    intro n h1 h2
    match n with
    | m + 1 =>
      by_cases hq : (m + 1) / 10 = 0
      · refine ⟨(m + 1) % 10, ?_, Nat.mod_lt _ (by omega), ?_⟩
        · have := Nat.div_add_mod (m + 1) 10
          omega
        · simp [natDigitsAux, hq, natDigitsAux_zero]
      · have hq1 : 1 ≤ (m + 1) / 10 := by omega
        have hq2 : (m + 1) / 10 ≤ f := by
          have : (m + 1) / 10 < m + 1 := Nat.div_lt_self (by omega) (by omega)
          omega
        obtain ⟨d, hd1, hd2, hd3⟩ := ih _ hq1 hq2
        refine ⟨d, hd1, hd2, ?_⟩
        rw [show natDigitsAux (f + 1) (m + 1) =
          digitChar ((m + 1) % 10) :: natDigitsAux f ((m + 1) / 10) from rfl,
          getLast?_cons_of_ne_nil (natDigitsAux_ne_nil hq1 hq2), hd3]

theorem head?_natToChars_pos {n : Nat} (h : 1 ≤ n) :
    ∃ d, 1 ≤ d ∧ d < 10 ∧ (natToChars n).head? = some (digitChar d) := by
  obtain ⟨d, hd1, hd2, hd3⟩ := getLast?_natDigitsAux n n h (Nat.le_refl n)
  refine ⟨d, hd1, hd2, ?_⟩
  simp only [natToChars, if_neg (by omega : ¬ n = 0), List.head?_reverse]
  exact hd3

theorem splitOnChar_ne_nil (c : Char) : ∀ l, splitOnChar c l ≠ [] := by
  intro l
  induction l with
  | nil => simp [splitOnChar]
  | cons x xs ih =>
    by_cases hx : x = c
    · simp [splitOnChar, hx]
    · simp only [splitOnChar, if_neg hx]
      cases hs : splitOnChar c xs with
      | nil => simp
      | cons p ps => simp

theorem splitOnChar_of_not_mem {c : Char} : ∀ {l}, c ∉ l → splitOnChar c l = [l] := by
  intro l
  induction l with
  | nil => intro _; rfl
  | cons x xs ih =>
    intro h
    have hx : ¬ x = c := fun he => h (by simp [he])
    have hxs : c ∉ xs := fun hm => h (List.mem_cons_of_mem _ hm)
    simp only [splitOnChar, if_neg hx, ih hxs]

theorem splitOnChar_append_cons (c : Char) : ∀ a b,
    splitOnChar c (a ++ c :: b) = splitOnChar c a ++ splitOnChar c b := by
  intro a b
  induction a with
  | nil => simp [splitOnChar]
  | cons x xs ih =>
    by_cases hx : x = c
    · simp [splitOnChar, hx, ih]
    · simp only [List.cons_append, splitOnChar, if_neg hx]
      cases hs : splitOnChar c xs with
      | nil => exact absurd hs (splitOnChar_ne_nil c xs)
      | cons p ps =>
        rw [show xs.append (c :: b) = xs ++ c :: b from rfl, ih, hs]
        simp

theorem splitFirst_of_not_mem {c : Char} : ∀ {l}, c ∉ l → splitFirst c l = (l, none) := by
  intro l
  induction l with
  | nil => intro _; rfl
  | cons x xs ih =>
    intro h
    have hx : ¬ x = c := fun he => h (by simp [he])
    have hxs : c ∉ xs := fun hm => h (List.mem_cons_of_mem _ hm)
    simp [splitFirst, if_neg hx, ih hxs]

theorem splitFirst_append {c : Char} : ∀ {a} (b), c ∉ a →
    splitFirst c (a ++ c :: b) = (a, some b) := by
  intro a
  induction a with
  | nil => intro b _; simp [splitFirst]
  | cons x xs ih =>
    intro b h
    have hx : ¬ x = c := fun he => h (by simp [he])
    have hxs : c ∉ xs := fun hm => h (List.mem_cons_of_mem _ hm)
    simp [splitFirst, if_neg hx, ih b hxs]

/-! ### Trim lemmas -/

theorem dropWhile_head_false {p : Char → Bool} : ∀ {l x xs},
    List.dropWhile p l = x :: xs → p x = false := by
  intro l
  induction l with
  | nil => intro x xs h; simp [List.dropWhile] at h
  | cons y ys ih =>
    intro x xs h
    by_cases hy : p y
    · rw [List.dropWhile_cons_of_pos hy] at h; exact ih h
    · rw [List.dropWhile_cons_of_neg hy] at h
      cases h; simpa using hy

theorem dropWhile_eq_self_of_head {p : Char → Bool} {l : Str}
    (h : ∀ x xs, l = x :: xs → p x = false) : List.dropWhile p l = l := by
  cases l with
  | nil => rfl
  | cons x xs => exact List.dropWhile_cons_of_neg (by simp [h x xs rfl])

theorem exists_dropWhile_suffix {p : Char → Bool} : ∀ l : Str,
    ∃ t, l = t ++ List.dropWhile p l := by
  intro l
  induction l with
  | nil => exact ⟨[], rfl⟩
  | cons x xs ih =>
    by_cases hx : p x
    · obtain ⟨t, ht⟩ := ih
      exact ⟨x :: t, by rw [List.dropWhile_cons_of_pos hx]; simpa using ht⟩
    · exact ⟨[], by rw [List.dropWhile_cons_of_neg hx]; rfl⟩

theorem getLast?_append_of_ne_nil {α : Type} {l₂ : List α} (h : l₂ ≠ []) :
    ∀ l₁ : List α, (l₁ ++ l₂).getLast? = l₂.getLast? := by
  intro l₁
  induction l₁ with
  | nil => rfl
  | cons x xs ih =>
    rw [List.cons_append, getLast?_cons_of_ne_nil (by simp [h]), ih]

/-- After `rustTrim`, the first character is not whitespace. -/
theorem rustTrim_head_not_ws {l : Str} {x : Char} {xs : Str}
    (h : rustTrim l = x :: xs) : isWs x = false := by
  unfold rustTrim at h
  have h2 : ((l.dropWhile isWs).reverse.dropWhile isWs).getLast? = some x := by
    rw [← List.head?_reverse, h]; rfl
  -- the trimmed-from-the-right list is a suffix of `(l.dropWhile isWs).reverse`,
  -- whose last element is the head of `l.dropWhile isWs`
  rcases hd : List.dropWhile isWs l with _ | ⟨y, ys⟩
  · rw [hd] at h2; simp [List.dropWhile] at h2
  · have hy : isWs y = false := dropWhile_head_false hd
    rcases he : List.dropWhile isWs (y :: ys).reverse with _ | ⟨z, zs⟩
    · rw [hd, he] at h2; simp at h2
    · obtain ⟨t, ht⟩ := @exists_dropWhile_suffix isWs (y :: ys).reverse
      rw [he] at ht
      have hlast : ((y : Char) :: ys).reverse.getLast? = some y := by
        rw [List.getLast?_reverse]; rfl
      rw [ht, getLast?_append_of_ne_nil (by simp)] at hlast
      rw [hd, he] at h2
      rw [h2] at hlast
      cases hlast
      exact hy

/-- After `rustTrim`, the last character is not whitespace. -/
theorem rustTrim_getLast_not_ws {l : Str} {x : Char}
    (h : (rustTrim l).getLast? = some x) : isWs x = false := by
  unfold rustTrim at h
  rw [List.getLast?_reverse] at h
  rcases he : List.dropWhile isWs (l.dropWhile isWs).reverse with _ | ⟨z, zs⟩
  · rw [he] at h; simp at h
  · rw [he] at h
    cases h
    exact dropWhile_head_false he

/-- `rustTrim` of a list with no leading or trailing whitespace is the identity;
in particular `rustTrim` is idempotent. -/
theorem rustTrim_eq_self {l : Str} (hh : ∀ x xs, l = x :: xs → isWs x = false)
    (hl : ∀ x, l.getLast? = some x → isWs x = false) : rustTrim l = l := by
  unfold rustTrim
  rw [dropWhile_eq_self_of_head hh]
  have : List.dropWhile isWs l.reverse = l.reverse := by
    apply dropWhile_eq_self_of_head
    intro x xs hx
    apply hl
    rw [← List.head?_reverse, hx]; rfl
  rw [this, List.reverse_reverse]

theorem rustTrim_idem (l : Str) : rustTrim (rustTrim l) = rustTrim l := by
  apply rustTrim_eq_self
  · intro x xs h; exact rustTrim_head_not_ws h
  · intro x h; exact rustTrim_getLast_not_ws h

theorem rustTrim_of_all_not_ws {l : Str} (h : ∀ c ∈ l, isWs c = false) :
    rustTrim l = l := by
  apply rustTrim_eq_self
  · intro x xs hx; exact h x (by rw [hx]; simp)
  · intro x hx
    refine h x ?_
    rw [← List.head?_reverse] at hx
    exact List.mem_reverse.mp (List.mem_of_mem_head? hx)

/-! ### The `semver` crate: `Version`, strict parsing, display, and precedence

The manager and the release tool both use the Rust `semver` crate
(`semver::Version`), an external dependency of the repository.  `pre` and
`build` are stored as raw strings, exactly as the crate stores
`Prerelease`/`BuildMetadata`. -/

structure Version where
  major : Nat
  minor : Nat
  patch : Nat
  pre : Str
  build : Str
  deriving DecidableEq, Repr

/-- Parse one of the three leading numeric components: nonempty, all decimal
digits, no leading zero (unless the component is exactly `0`), value below
`2 ^ 64` (the crate parses into `u64` and rejects overflow). -/
def parseNumPart (l : Str) : Option Nat :=
  if l ≠ [] ∧ l.all isDigitChar ∧ (l = ['0'] ∨ l.head? ≠ some '0') ∧
      charsToNat l < 2 ^ 64 then
    some (charsToNat l)
  else none

/-- A valid prerelease identifier: nonempty, alphanumeric-or-hyphen, and, when
fully numeric, free of leading zeros. -/
def validPreIdent (l : Str) : Bool :=
  !l.isEmpty && l.all isIdentChar &&
    (!(l.all isDigitChar) || (l = ['0'] || l.head? ≠ some '0'))

/-- A valid prerelease string: nonempty, dot-separated valid identifiers. -/
def validPre (l : Str) : Bool :=
  !l.isEmpty && (splitOnChar '.' l).all validPreIdent

/-- A valid build-metadata identifier: nonempty, alphanumeric-or-hyphen
(leading zeros are allowed in build metadata). -/
def validBuildIdent (l : Str) : Bool :=
  !l.isEmpty && l.all isIdentChar

/-- A valid build-metadata string: nonempty, dot-separated valid identifiers. -/
def validBuild (l : Str) : Bool :=
  !l.isEmpty && (splitOnChar '.' l).all validBuildIdent

/-- `semver::Version::parse`: strict parsing of
`MAJOR.MINOR.PATCH[-pre][+build]` with no surrounding whitespace and no
leading `v`. -/
def semverParse (l : Str) : Option Version :=
  let cb := splitFirst '+' l
  let np := splitFirst '-' cb.1
  match splitOnChar '.' np.1 with
  | [ma, mi, pa] =>
    match parseNumPart ma, parseNumPart mi, parseNumPart pa with
    | some major, some minor, some patch =>
      let preOk : Option Str :=
        match np.2 with
        | none => some []
        | some p => if validPre p then some p else none
      let buildOk : Option Str :=
        match cb.2 with
        | none => some []
        | some b => if validBuild b then some b else none
      match preOk, buildOk with
      | some pre, some build => some ⟨major, minor, patch, pre, build⟩
      | _, _ => none
    | _, _, _ => none
  | _ => none

/-- `semver::Version` `Display`: `MAJOR.MINOR.PATCH`, then `-pre` when the
prerelease is nonempty, then `+build` when the build metadata is nonempty. -/
def renderVersion (v : Version) : Str :=
  natToChars v.major ++ '.' :: natToChars v.minor ++ '.' :: natToChars v.patch ++
    (if v.pre = [] then [] else '-' :: v.pre) ++
    (if v.build = [] then [] else '+' :: v.build)

/-- The well-formedness invariant of every `semver::Version` value the crate
can construct: components fit in `u64`, `pre`/`build` are valid when
nonempty. -/
def Version.WellFormed (v : Version) : Prop :=
  v.major < 2 ^ 64 ∧ v.minor < 2 ^ 64 ∧ v.patch < 2 ^ 64 ∧
    (v.pre = [] ∨ validPre v.pre = true) ∧
    (v.build = [] ∨ validBuild v.build = true)

instance (v : Version) : Decidable v.WellFormed := by
  unfold Version.WellFormed; infer_instance

/-! #### SemVer precedence (the ordering `semver::Version` compares with) -/

/-- ASCII lexicographic order on character lists. -/
def lexLt : Str → Str → Bool
  | [], [] => false
  | [], _ :: _ => true
  | _ :: _, [] => false
  | a :: as, b :: bs =>
    if a.toNat < b.toNat then true
    else if b.toNat < a.toNat then false
    else lexLt as bs

/-- SemVer precedence on single prerelease identifiers: numeric identifiers
compare numerically, numeric is below alphanumeric, alphanumeric identifiers
compare ASCII-lexicographically. -/
def identLt (a b : Str) : Bool :=
  if a.all isDigitChar then
    if b.all isDigitChar then charsToNat a < charsToNat b
    else true
  else
    if b.all isDigitChar then false
    else lexLt a b

/-- SemVer precedence on dot-separated identifier lists: lexicographic, with a
strict prefix comparing below the longer list. -/
def identsLt : List Str → List Str → Bool
  | [], [] => false
  | [], _ :: _ => true
  | _ :: _, [] => false
  | a :: as, b :: bs => identLt a b || (a = b && identsLt as bs)

/-- SemVer precedence on prerelease strings: the empty prerelease (a normal
release) is above every nonempty one. -/
def preLt (a b : Str) : Bool :=
  if a.isEmpty then false
  else if b.isEmpty then true
  else identsLt (splitOnChar '.' a) (splitOnChar '.' b)

/-- Strict SemVer precedence on versions (build metadata does not participate
in precedence). -/
def semverLt (x y : Version) : Bool :=
  x.major < y.major ||
    (x.major = y.major &&
      (x.minor < y.minor ||
        (x.minor = y.minor &&
          (x.patch < y.patch ||
            (x.patch = y.patch && preLt x.pre y.pre)))))

/-! #### Parse/render round trip -/

theorem not_mem_natToChars {c : Char} {n : Nat} (h : isDigitChar c = false) :
    c ∉ natToChars n := by
  intro hm
  rw [mem_natToChars_isDigit hm] at h
  cases h

theorem mem_of_splitOnChar {c : Char} : ∀ {l x}, x ∈ l →
    x = c ∨ ∃ p ∈ splitOnChar c l, x ∈ p := by
  intro l
  induction l with
  | nil => intro x hx; cases hx
  | cons y ys ih =>
    intro x hx
    by_cases hy : y = c
    · rcases List.mem_cons.mp hx with h | h
      · exact Or.inl (h.trans hy)
      · rcases ih h with h2 | ⟨p, hp, hxp⟩
        · exact Or.inl h2
        · exact Or.inr ⟨p, by simp [splitOnChar, hy, hp], hxp⟩
    · simp only [splitOnChar, if_neg hy]
      cases hs : splitOnChar c ys with
      | nil => exact absurd hs (splitOnChar_ne_nil c ys)
      | cons p ps =>
        rcases List.mem_cons.mp hx with h | h
        · exact Or.inr ⟨y :: p, by simp, by simp [h]⟩
        · rcases ih h with h2 | ⟨q, hq, hxq⟩
          · exact Or.inl h2
          · rw [hs] at hq
            rcases List.mem_cons.mp hq with h3 | h3
            · exact Or.inr ⟨y :: p, by simp, by simp [h3 ▸ hxq]⟩
            · exact Or.inr ⟨q, by simp [h3], hxq⟩

theorem mem_pre_of_validPre {l : Str} {c : Char} (hv : validPre l = true)
    (hc : c ∈ l) : isIdentChar c = true ∨ c = '.' := by
  rcases mem_of_splitOnChar (c := '.') hc with h | ⟨p, hp, hcp⟩
  · exact Or.inr h
  · simp only [validPre, Bool.and_eq_true, List.all_eq_true] at hv
    have := hv.2 p hp
    simp only [validPreIdent, Bool.and_eq_true, List.all_eq_true] at this
    exact Or.inl (this.1.2 c hcp)

theorem mem_build_of_validBuild {l : Str} {c : Char} (hv : validBuild l = true)
    (hc : c ∈ l) : isIdentChar c = true ∨ c = '.' := by
  rcases mem_of_splitOnChar (c := '.') hc with h | ⟨p, hp, hcp⟩
  · exact Or.inr h
  · simp only [validBuild, Bool.and_eq_true, List.all_eq_true] at hv
    have := hv.2 p hp
    simp only [validBuildIdent, Bool.and_eq_true, List.all_eq_true] at this
    exact Or.inl (this.2 c hcp)

theorem parseNumPart_natToChars {n : Nat} (h : n < 2 ^ 64) :
    parseNumPart (natToChars n) = some n := by
  have hall : (natToChars n).all isDigitChar = true :=
    List.all_eq_true.mpr fun c hc => mem_natToChars_isDigit hc
  have hzero : natToChars n = ['0'] ∨ (natToChars n).head? ≠ some '0' := by
    by_cases hn : n = 0
    · exact Or.inl (by simp [natToChars, hn])
    · obtain ⟨d, hd1, hd2, hd3⟩ := @head?_natToChars_pos n (by omega)
      refine Or.inr ?_
      rw [hd3]
      intro he
      have h0 : digitChar d = '0' := by injection he
      have : digitVal (digitChar d) = digitVal '0' := by rw [h0]
      rw [digitVal_digitChar hd2] at this
      simp [digitVal] at this
      omega
  rw [parseNumPart, if_pos ⟨natToChars_ne_nil, hall, hzero, by rw [charsToNat_natToChars]; exact h⟩,
    charsToNat_natToChars]

/-- Every successfully parsed version is well-formed. -/
theorem semverParse_wellFormed {l : Str} {v : Version}
    (h : semverParse l = some v) : v.WellFormed := by
  simp only [semverParse] at h
  rcases hsp : splitOnChar '.' (splitFirst '-' (splitFirst '+' l).1).1 with
      _ | ⟨ma, rest⟩
  · rw [hsp] at h; exact absurd h (by simp)
  rcases rest with _ | ⟨mi, rest2⟩
  · rw [hsp] at h; exact absurd h (by simp)
  rcases rest2 with _ | ⟨pa, rest3⟩
  · rw [hsp] at h; exact absurd h (by simp)
  rcases rest3 with _ | _
  swap
  · rw [hsp] at h; exact absurd h (by simp)
  rw [hsp] at h
  simp only at h
  rcases hma : parseNumPart ma with _ | major
  · rw [hma] at h; exact absurd h (by simp)
  rcases hmi : parseNumPart mi with _ | minor
  · rw [hma, hmi] at h; exact absurd h (by simp)
  rcases hpa : parseNumPart pa with _ | patch
  · rw [hma, hmi, hpa] at h; exact absurd h (by simp)
  rw [hma, hmi, hpa] at h
  have hval : ∀ {x : Str} {m : Nat}, parseNumPart x = some m → m < 2 ^ 64 := by
    intro x m hx
    unfold parseNumPart at hx
    by_cases hc : x ≠ [] ∧ x.all isDigitChar = true ∧ (x = ['0'] ∨ x.head? ≠ some '0') ∧
        charsToNat x < 2 ^ 64
    · rw [if_pos hc] at hx
      injection hx with hx
      exact hx ▸ hc.2.2.2
    · rw [if_neg hc] at hx; cases hx
  rcases hpre : (splitFirst '-' (splitFirst '+' l).1).2 with _ | p
  · rw [hpre] at h
    rcases hbd : (splitFirst '+' l).2 with _ | b
    · rw [hbd] at h
      dsimp only at h
      simp only [Option.some_inj] at h
      subst h
      exact ⟨hval hma, hval hmi, hval hpa, Or.inl rfl, Or.inl rfl⟩
    · rw [hbd] at h
      dsimp only at h
      by_cases hvb : validBuild b = true
      · rw [if_pos hvb] at h
        simp only [Option.some_inj] at h
        subst h
        exact ⟨hval hma, hval hmi, hval hpa, Or.inl rfl, Or.inr hvb⟩
      · rw [if_neg hvb] at h; exact absurd h (by simp)
  · rw [hpre] at h
    dsimp only at h
    by_cases hvp : validPre p = true
    swap
    · rw [if_neg hvp] at h
      rcases hbd : (splitFirst '+' l).2 with _ | b
      · rw [hbd] at h; exact absurd h (by simp)
      · rw [hbd] at h
        dsimp only at h
        exact absurd h (by simp)
    rw [if_pos hvp] at h
    rcases hbd : (splitFirst '+' l).2 with _ | b
    · rw [hbd] at h
      dsimp only at h
      simp only [Option.some_inj] at h
      subst h
      exact ⟨hval hma, hval hmi, hval hpa, Or.inr hvp, Or.inl rfl⟩
    · rw [hbd] at h
      dsimp only at h
      by_cases hvb : validBuild b = true
      · rw [if_pos hvb] at h
        simp only [Option.some_inj] at h
        subst h
        exact ⟨hval hma, hval hmi, hval hpa, Or.inr hvp, Or.inr hvb⟩
      · rw [if_neg hvb] at h; exact absurd h (by simp)

theorem not_mem_nums {c : Char} {x y z : Nat} (h1 : isDigitChar c = false)
    (h2 : c ≠ '.') :
    c ∉ natToChars x ++ '.' :: natToChars y ++ '.' :: natToChars z := by
  intro hm
  rcases List.mem_append.mp hm with h | h
  · rcases List.mem_append.mp h with h | h
    · exact not_mem_natToChars h1 h
    · rcases List.mem_cons.mp h with h | h
      · exact h2 h
      · exact not_mem_natToChars h1 h
  · rcases List.mem_cons.mp h with h | h
    · exact h2 h
    · exact not_mem_natToChars h1 h

theorem not_mem_preSeg {v : Version} (hwfp : v.pre = [] ∨ validPre v.pre = true)
    {c : Char} (h1 : isIdentChar c = false) (h2 : c ≠ '.') (h3 : c ≠ '-') :
    c ∉ (if v.pre = [] then ([] : Str) else '-' :: v.pre) := by
  by_cases hp : v.pre = []
  · simp [hp]
  · rw [if_neg hp]
    intro hm
    rcases List.mem_cons.mp hm with h | h
    · exact h3 h
    · rcases hwfp with h4 | h4
      · exact hp h4
      · rcases mem_pre_of_validPre h4 h with hi | hd
        · rw [h1] at hi; cases hi
        · exact h2 hd

theorem not_mem_core {v : Version} (hwfp : v.pre = [] ∨ validPre v.pre = true)
    {c : Char} (h0 : isDigitChar c = false) (h1 : isIdentChar c = false)
    (h2 : c ≠ '.') (h3 : c ≠ '-') :
    c ∉ natToChars v.major ++ '.' :: natToChars v.minor ++
      '.' :: (natToChars v.patch ++ (if v.pre = [] then ([] : Str) else '-' :: v.pre)) := by
  intro hm
  rcases List.mem_append.mp hm with h | h
  · rcases List.mem_append.mp h with h | h
    · exact not_mem_natToChars h0 h
    · rcases List.mem_cons.mp h with h | h
      · exact h2 h
      · exact not_mem_natToChars h0 h
  · rcases List.mem_cons.mp h with h | h
    · exact h2 h
    · rcases List.mem_append.mp h with h | h
      · exact not_mem_natToChars h0 h
      · exact not_mem_preSeg hwfp h1 h2 h3 h

/-- Printing a well-formed version and parsing it back returns the same
version (`Version::parse ∘ Display` is the identity on crate-constructible
versions). -/
theorem semverParse_renderVersion {v : Version} (h : v.WellFormed) :
    semverParse (renderVersion v) = some v := by
  obtain ⟨vmaj, vmin, vpat, vpre, vbuild⟩ := v
  obtain ⟨hma, hmi, hpa, hwfp, hwfb⟩ := h
  have hplus_core := not_mem_core (v := ⟨vmaj, vmin, vpat, vpre, vbuild⟩) hwfp (c := '+')
    (by decide) (by decide) (by decide) (by decide)
  have step1 : splitFirst '+' (renderVersion ⟨vmaj, vmin, vpat, vpre, vbuild⟩) =
      (natToChars vmaj ++ '.' :: natToChars vmin ++
        '.' :: (natToChars vpat ++ (if vpre = [] then ([] : Str) else '-' :: vpre)),
       if vbuild = [] then none else some vbuild) := by
    by_cases hb : vbuild = []
    · rw [if_pos hb]
      have he : renderVersion ⟨vmaj, vmin, vpat, vpre, vbuild⟩ =
          natToChars vmaj ++ '.' :: natToChars vmin ++
          '.' :: (natToChars vpat ++ (if vpre = [] then ([] : Str) else '-' :: vpre)) := by
        unfold renderVersion
        dsimp only
        rw [hb, if_pos rfl]
        simp [List.append_assoc]
      rw [he]
      exact splitFirst_of_not_mem hplus_core
    · rw [if_neg hb]
      have he : renderVersion ⟨vmaj, vmin, vpat, vpre, vbuild⟩ =
          (natToChars vmaj ++ '.' :: natToChars vmin ++
          '.' :: (natToChars vpat ++ (if vpre = [] then ([] : Str) else '-' :: vpre))) ++
          '+' :: vbuild := by
        unfold renderVersion
        dsimp only
        rw [if_neg hb]
        simp [List.append_assoc]
      rw [he]
      exact splitFirst_append _ hplus_core
  have hdash_nums := not_mem_nums (c := '-') (x := vmaj) (y := vmin) (z := vpat)
    (by decide) (by decide)
  have step2 : splitFirst '-' (natToChars vmaj ++ '.' :: natToChars vmin ++
      '.' :: (natToChars vpat ++ (if vpre = [] then ([] : Str) else '-' :: vpre))) =
      (natToChars vmaj ++ '.' :: natToChars vmin ++ '.' :: natToChars vpat,
       if vpre = [] then none else some vpre) := by
    by_cases hp : vpre = []
    · have he : natToChars vmaj ++ '.' :: natToChars vmin ++
          '.' :: (natToChars vpat ++ (if vpre = [] then ([] : Str) else '-' :: vpre)) =
          natToChars vmaj ++ '.' :: natToChars vmin ++ '.' :: natToChars vpat := by
        rw [hp]
        simp
      rw [he, if_pos hp]
      exact splitFirst_of_not_mem hdash_nums
    · have he : natToChars vmaj ++ '.' :: natToChars vmin ++
          '.' :: (natToChars vpat ++ (if vpre = [] then ([] : Str) else '-' :: vpre)) =
          (natToChars vmaj ++ '.' :: natToChars vmin ++ '.' :: natToChars vpat) ++
          '-' :: vpre := by
        rw [if_neg hp]
        simp [List.append_assoc]
      rw [he, if_neg hp]
      exact splitFirst_append _ hdash_nums
  have hdot : ∀ n : Nat, ('.' : Char) ∉ natToChars n := fun n =>
    not_mem_natToChars (by decide)
  have step3 : splitOnChar '.' (natToChars vmaj ++ '.' :: natToChars vmin ++
      '.' :: natToChars vpat) =
      [natToChars vmaj, natToChars vmin, natToChars vpat] := by
    rw [splitOnChar_append_cons, splitOnChar_append_cons,
      splitOnChar_of_not_mem (hdot vmaj), splitOnChar_of_not_mem (hdot vmin),
      splitOnChar_of_not_mem (hdot vpat)]
    rfl
  simp only [semverParse, step1, step2, step3]
  rw [parseNumPart_natToChars hma, parseNumPart_natToChars hmi, parseNumPart_natToChars hpa]
  by_cases hp : vpre = []
  · subst hp
    by_cases hb : vbuild = []
    · subst hb
      simp
    · simp only [if_neg hb, if_pos (hwfb.resolve_left hb)]
      simp
  · simp only [if_neg hp, if_pos (hwfp.resolve_left hp)]
    by_cases hb : vbuild = []
    · subst hb
      simp
    · simp only [if_neg hb, if_pos (hwfb.resolve_left hb)]

instance exceptDecEq {ε α : Type} [DecidableEq ε] [DecidableEq α] :
    DecidableEq (Except ε α) := fun x y =>
  match x, y with
  | .ok a, .ok b =>
    if h : a = b then isTrue (by rw [h]) else isFalse (by intro he; cases he; exact h rfl)
  | .error a, .error b =>
    if h : a = b then isTrue (by rw [h]) else isFalse (by intro he; cases he; exact h rfl)
  | .ok _, .error _ => isFalse (by intro he; cases he)
  | .error _, .ok _ => isFalse (by intro he; cases he)

/-! ### Errors (`crates/nodeup/src/errors.rs`)

`NodeupError` couples an error kind with a message built by a `format!`
template; messages are modelled as one constructor per template, carrying the
interpolated values. -/

inductive ErrorKind
  | internal
  | invalidInput
  | unsupportedPlatform
  | network
  | notFound
  | conflict
  deriving DecidableEq, Repr

inductive NodeupMsg
  | selectorEmpty
  | selectorInvalid (sel : Str)
  | versionMissing (version : Str)
  | hostUnsupported
  | lockHeld (version : Str)
  | checksumMissing (file : Str)
  | checksumMismatch (file expected observed : Str)
  | channelEmpty
  | linkedMissing (name : Str)
  | noSelectorResolved
  | networkFailed
  | cacheInvalid
  | malformedShasums
  deriving DecidableEq, Repr

structure NodeupError where
  kind : ErrorKind
  msg : NodeupMsg
  deriving DecidableEq, Repr

/-! ### Selector grammar (`crates/nodeup/src/selectors.rs`, `types.rs`) -/

inductive NodeupChannel
  | lts
  | current
  | latest
  deriving DecidableEq, Repr

/-- `Display` for `NodeupChannel` (`types.rs`): the lowercase channel name. -/
def NodeupChannel.toChars : NodeupChannel → Str
  | .lts => ['l', 't', 's']
  | .current => ['c', 'u', 'r', 'r', 'e', 'n', 't']
  | .latest => ['l', 'a', 't', 'e', 's', 't']

inductive RuntimeSelector
  | version (v : Version)
  | channel (c : NodeupChannel)
  | linkedName (name : Str)
  deriving DecidableEq, Repr

/-- `is_valid_linked_name` (`selectors.rs`): first character ASCII
alphanumeric, remaining characters alphanumeric, `-`, or `_`. -/
def is_valid_linked_name (l : Str) : Bool :=
  match l with
  | [] => false
  | c :: rest =>
    isAlnumChar c && rest.all (fun d => isAlnumChar d || d = '-' || d = '_')

/-- `RuntimeSelector::parse` (`selectors.rs`): trim, reject empty, exact
channel tokens, optional leading `v` plus strict semver, strict semver,
otherwise a linked name. -/
def RuntimeSelector.parse (input : Str) : Except NodeupError RuntimeSelector :=
  let normalized := rustTrim input
  if normalized = [] then
    .error ⟨.invalidInput, .selectorEmpty⟩
  else if normalized = NodeupChannel.lts.toChars then
    .ok (.channel .lts)
  else if normalized = NodeupChannel.current.toChars then
    .ok (.channel .current)
  else if normalized = NodeupChannel.latest.toChars then
    .ok (.channel .latest)
  else
    let viaV : Option Version :=
      match normalized with
      | c :: stripped => if c = 'v' then semverParse stripped else none
      | [] => none
    match viaV with
    | some ver => .ok (.version ver)
    | none =>
      match semverParse normalized with
      | some ver => .ok (.version ver)
      | none =>
        if is_valid_linked_name normalized then .ok (.linkedName normalized)
        else .error ⟨.invalidInput, .selectorInvalid normalized⟩

/-- `RuntimeSelector::stable_id` (`selectors.rs`): `vX.Y.Z` for versions, the
channel name for channels, the literal name for links. -/
def RuntimeSelector.stable_id : RuntimeSelector → Str
  | .version v => 'v' :: renderVersion v
  | .channel c => c.toChars
  | .linkedName n => n

/-! ### Selector lemmas -/

theorem isWs_false_of_classes {c : Char}
    (h : isDigitChar c = true ∨ c = '.' ∨ c = '-' ∨ c = '+' ∨ c = '_' ∨ c = 'v' ∨
      isIdentChar c = true) : isWs c = false := by
  have hn : c.toNat ≠ 32 ∧ c.toNat ≠ 9 ∧ c.toNat ≠ 10 ∧ c.toNat ≠ 13 := by
    rcases h with h | h | h | h | h | h | h
    · have := toNat_of_isDigitChar h; omega
    · subst h; refine ⟨?_, ?_, ?_, ?_⟩ <;> decide
    · subst h; refine ⟨?_, ?_, ?_, ?_⟩ <;> decide
    · subst h; refine ⟨?_, ?_, ?_, ?_⟩ <;> decide
    · subst h; refine ⟨?_, ?_, ?_, ?_⟩ <;> decide
    · subst h; refine ⟨?_, ?_, ?_, ?_⟩ <;> decide
    · simp only [isIdentChar, isAlnumChar, Bool.or_eq_true, Bool.and_eq_true,
        decide_eq_true_eq] at h
      rcases h with ((h | h) | h) | h
      · omega
      · omega
      · omega
      · subst h; refine ⟨?_, ?_, ?_, ?_⟩ <;> decide
  simp only [isWs, Bool.or_eq_false_iff, decide_eq_false_iff_not]
  exact ⟨⟨⟨hn.1, hn.2.1⟩, hn.2.2.1⟩, hn.2.2.2⟩

theorem mem_renderVersion_class {v : Version} (hwf : v.WellFormed) {c : Char}
    (hc : c ∈ renderVersion v) :
    isDigitChar c = true ∨ c = '.' ∨ c = '-' ∨ c = '+' ∨ isIdentChar c = true := by
  obtain ⟨-, -, -, hwfp, hwfb⟩ := hwf
  unfold renderVersion at hc
  rcases List.mem_append.mp hc with h | h
  · rcases List.mem_append.mp h with h | h
    · rcases List.mem_append.mp h with h | h
      · rcases List.mem_append.mp h with h | h
        · exact Or.inl (mem_natToChars_isDigit h)
        · rcases List.mem_cons.mp h with h | h
          · exact Or.inr (Or.inl h)
          · exact Or.inl (mem_natToChars_isDigit h)
      · rcases List.mem_cons.mp h with h | h
        · exact Or.inr (Or.inl h)
        · exact Or.inl (mem_natToChars_isDigit h)
    · by_cases hp : v.pre = []
      · rw [hp] at h; simp at h
      · rw [if_neg hp] at h
        rcases List.mem_cons.mp h with h | h
        · exact Or.inr (Or.inr (Or.inl h))
        · rcases mem_pre_of_validPre (hwfp.resolve_left hp) h with h2 | h2
          · exact Or.inr (Or.inr (Or.inr (Or.inr h2)))
          · exact Or.inr (Or.inl h2)
  · by_cases hb : v.build = []
    · rw [hb] at h; simp at h
    · rw [if_neg hb] at h
      rcases List.mem_cons.mp h with h | h
      · exact Or.inr (Or.inr (Or.inr (Or.inl h)))
      · rcases mem_build_of_validBuild (hwfb.resolve_left hb) h with h2 | h2
        · exact Or.inr (Or.inr (Or.inr (Or.inr h2)))
        · exact Or.inr (Or.inl h2)

theorem rustTrim_vRender {v : Version} (hwf : v.WellFormed) :
    rustTrim ('v' :: renderVersion v) = 'v' :: renderVersion v := by
  apply rustTrim_of_all_not_ws
  intro c hc
  rcases List.mem_cons.mp hc with h | h
  · exact isWs_false_of_classes (Or.inr (Or.inr (Or.inr (Or.inr (Or.inr (Or.inl h))))))
  · rcases mem_renderVersion_class hwf h with h2 | h2 | h2 | h2 | h2
    · exact isWs_false_of_classes (Or.inl h2)
    · exact isWs_false_of_classes (Or.inr (Or.inl h2))
    · exact isWs_false_of_classes (Or.inr (Or.inr (Or.inl h2)))
    · exact isWs_false_of_classes (Or.inr (Or.inr (Or.inr (Or.inl h2))))
    · exact isWs_false_of_classes (Or.inr (Or.inr (Or.inr (Or.inr (Or.inr (Or.inr h2))))))

theorem rustTrim_linked {n : Str} (hv : is_valid_linked_name n = true) :
    rustTrim n = n := by
  apply rustTrim_of_all_not_ws
  intro c hc
  match n, hc with
  | c0 :: rest, hc =>
    simp only [is_valid_linked_name, Bool.and_eq_true, List.all_eq_true] at hv
    rcases List.mem_cons.mp hc with h | h
    · subst h
      exact isWs_false_of_classes (Or.inr (Or.inr (Or.inr (Or.inr (Or.inr (Or.inr
        (by simp [isIdentChar, hv.1])))))))
    · have := hv.2 c h
      simp only [Bool.or_eq_true, decide_eq_true_eq] at this
      rcases this with (h2 | h2) | h2
      · exact isWs_false_of_classes (Or.inr (Or.inr (Or.inr (Or.inr (Or.inr (Or.inr
          (by simp [isIdentChar, h2])))))))
      · exact isWs_false_of_classes (Or.inr (Or.inr (Or.inl h2)))
      · exact isWs_false_of_classes (Or.inr (Or.inr (Or.inr (Or.inr (Or.inl h2)))))

theorem linked_name_ne_nil {n : Str} (hv : is_valid_linked_name n = true) : n ≠ [] := by
  intro he
  rw [he] at hv
  cases hv

/-- Inversion of `RuntimeSelector::parse` on success. -/
theorem parse_inv {s : Str} {sel : RuntimeSelector}
    (h : RuntimeSelector.parse s = .ok sel) :
    (∃ c, sel = .channel c ∧ rustTrim s = c.toChars) ∨
    (∃ ver, sel = .version ver ∧ ver.WellFormed) ∨
    (∃ n, sel = .linkedName n ∧ n = rustTrim s ∧ is_valid_linked_name n = true ∧
      semverParse n = none ∧
      (∀ c0 rest, n = c0 :: rest → c0 = 'v' → semverParse rest = none) ∧
      n ≠ NodeupChannel.lts.toChars ∧ n ≠ NodeupChannel.current.toChars ∧
      n ≠ NodeupChannel.latest.toChars) := by
  simp only [RuntimeSelector.parse] at h
  by_cases h0 : rustTrim s = []
  · rw [if_pos h0] at h; cases h
  rw [if_neg h0] at h
  by_cases h1 : rustTrim s = NodeupChannel.lts.toChars
  · rw [if_pos h1] at h
    injection h with h
    exact Or.inl ⟨.lts, h.symm, h1⟩
  rw [if_neg h1] at h
  by_cases h2 : rustTrim s = NodeupChannel.current.toChars
  · rw [if_pos h2] at h
    injection h with h
    exact Or.inl ⟨.current, h.symm, h2⟩
  rw [if_neg h2] at h
  by_cases h3 : rustTrim s = NodeupChannel.latest.toChars
  · rw [if_pos h3] at h
    injection h with h
    exact Or.inl ⟨.latest, h.symm, h3⟩
  rw [if_neg h3] at h
  rcases ht : rustTrim s with _ | ⟨c0, rest⟩
  · exact absurd ht h0
  rw [ht] at h
  dsimp only at h
  by_cases hv : c0 = 'v'
  · rw [if_pos hv] at h
    rcases hsp : semverParse rest with _ | ver
    · rw [hsp] at h
      dsimp only at h
      rcases hsn : semverParse (c0 :: rest) with _ | ver2
      · rw [hsn] at h
        dsimp only at h
        by_cases hvalid : is_valid_linked_name (c0 :: rest) = true
        · rw [if_pos hvalid] at h
          injection h with h
          refine Or.inr (Or.inr ⟨c0 :: rest, h.symm, rfl, hvalid, hsn, ?_, ?_, ?_, ?_⟩)
          · intro c1 rest1 he hv1
            injection he with he1 he2
            rw [← he2]
            exact hsp
          · rw [← ht]; exact h1
          · rw [← ht]; exact h2
          · rw [← ht]; exact h3
        · rw [if_neg hvalid] at h; cases h
      · rw [hsn] at h
        dsimp only at h
        injection h with h
        exact Or.inr (Or.inl ⟨ver2, h.symm, semverParse_wellFormed hsn⟩)
    · rw [hsp] at h
      dsimp only at h
      injection h with h
      exact Or.inr (Or.inl ⟨ver, h.symm, semverParse_wellFormed hsp⟩)
  · rw [if_neg hv] at h
    dsimp only at h
    rcases hsn : semverParse (c0 :: rest) with _ | ver2
    · rw [hsn] at h
      dsimp only at h
      by_cases hvalid : is_valid_linked_name (c0 :: rest) = true
      · rw [if_pos hvalid] at h
        injection h with h
        refine Or.inr (Or.inr ⟨c0 :: rest, h.symm, rfl, hvalid, hsn, ?_, ?_, ?_, ?_⟩)
        · intro c1 rest1 he hv1
          injection he with he1 he2
          exact absurd (he1.trans hv1) hv
        · rw [← ht]; exact h1
        · rw [← ht]; exact h2
        · rw [← ht]; exact h3
      · rw [if_neg hvalid] at h; cases h
    · rw [hsn] at h
      dsimp only at h
      injection h with h
      exact Or.inr (Or.inl ⟨ver2, h.symm, semverParse_wellFormed hsn⟩)

theorem rustTrim_nil_of_all_ws {l : Str} (h : ∀ c ∈ l, isWs c = true) :
    rustTrim l = [] := by
  have h1 : List.dropWhile isWs l = [] :=
    List.dropWhile_eq_nil_iff.mpr (fun x hx => h x hx)
  unfold rustTrim
  rw [h1]
  rfl

/-- C9: for every string on which `RuntimeSelector::parse` succeeds,
re-parsing the stable identifier returns the same selector:
`parse (parse s).stable_id = parse s`. -/
theorem parse_stable_id_roundtrip {s : Str} {sel : RuntimeSelector}
    (h : RuntimeSelector.parse s = .ok sel) :
    RuntimeSelector.parse sel.stable_id = .ok sel := by
  rcases parse_inv h with ⟨c, hsel, -⟩ | ⟨ver, hsel, hwf⟩ |
      ⟨n, hsel, -, hvalid, hsn, hviaV, hne1, hne2, hne3⟩
  · subst hsel
    cases c <;> decide
  · subst hsel
    show RuntimeSelector.parse ('v' :: renderVersion ver) = .ok (.version ver)
    simp only [RuntimeSelector.parse, rustTrim_vRender hwf]
    rw [if_neg (by simp), if_neg ?hlts, if_neg ?hcur, if_neg ?hlat]
    case hlts =>
      intro he
      injection he with h1 _
      exact absurd h1 (by decide)
    case hcur =>
      intro he
      injection he with h1 _
      exact absurd h1 (by decide)
    case hlat =>
      intro he
      injection he with h1 _
      exact absurd h1 (by decide)
    simp only [if_true]
    rw [semverParse_renderVersion hwf]
  · subst hsel
    show RuntimeSelector.parse n = .ok (.linkedName n)
    simp only [RuntimeSelector.parse, rustTrim_linked hvalid]
    rw [if_neg (linked_name_ne_nil hvalid), if_neg hne1, if_neg hne2, if_neg hne3]
    rcases hn : n with _ | ⟨c0, rest⟩
    · exact absurd hn (linked_name_ne_nil hvalid)
    dsimp only
    by_cases hv : c0 = 'v'
    · rw [if_pos hv, hviaV c0 rest hn hv]
      dsimp only
      rw [← hn, hsn]
      dsimp only
      rw [if_pos (hn ▸ hvalid)]
    · rw [if_neg hv]
      dsimp only
      rw [← hn, hsn]
      dsimp only
      rw [if_pos (hn ▸ hvalid)]

/-- Witness for C9 at the concrete selector string `lts`. -/
theorem parse_stable_id_roundtrip_witness :
    RuntimeSelector.parse ['l', 't', 's'] = .ok (.channel .lts) ∧
    RuntimeSelector.parse (RuntimeSelector.stable_id (.channel .lts)) =
      .ok (.channel .lts) :=
  ⟨by decide, parse_stable_id_roundtrip (s := ['l', 't', 's']) (by decide)⟩

/-- C10: `RuntimeSelector::parse` trims surrounding whitespace before
applying any rule: `parse s = parse (trim s)`; a whitespace-only string is
rejected with exactly the empty-selector `InvalidInput` error; and a padded
channel token such as `" lts "` parses as the channel. -/
theorem parse_trims_whitespace :
    (∀ s : Str, RuntimeSelector.parse s = RuntimeSelector.parse (rustTrim s)) ∧
    (∀ s : Str, (∀ c ∈ s, isWs c = true) →
      RuntimeSelector.parse s = RuntimeSelector.parse ([] : Str) ∧
      RuntimeSelector.parse s = .error ⟨.invalidInput, .selectorEmpty⟩) ∧
    RuntimeSelector.parse [' ', 'l', 't', 's', ' '] = .ok (.channel .lts) := by
  refine ⟨?_, ?_, by decide⟩
  · intro s
    simp only [RuntimeSelector.parse, rustTrim_idem]
  · intro s hws
    have ht : rustTrim s = [] := rustTrim_nil_of_all_ws hws
    constructor
    · simp only [RuntimeSelector.parse, ht]
      rfl
    · simp only [RuntimeSelector.parse, ht]
      rfl

/-- Witness for C10 at the concrete whitespace-only string of two blanks. -/
theorem parse_trims_whitespace_witness :
    RuntimeSelector.parse [' ', ' '] = .error ⟨.invalidInput, .selectorEmpty⟩ :=
  (parse_trims_whitespace.2.1 [' ', ' '] (by decide)).2

/-! ### Release-tool versioning (`crates/cargo-mono/src/versioning.rs`,
`types.rs`, `errors.rs`) -/

inductive CargoErrorKind
  | internal
  | invalidInput
  | git
  | cargo
  | conflict
  deriving DecidableEq, Repr

inductive CargoMsg
  | preidRequired
  | invalidSemver (pre : Str)
  | cycleDetected
  deriving DecidableEq, Repr

structure CargoMonoError where
  kind : CargoErrorKind
  msg : CargoMsg
  deriving DecidableEq, Repr

inductive BumpLevel
  | major
  | minor
  | patch
  | prerelease
  deriving DecidableEq, Repr

/-- `semver::Prerelease::new`: validate a prerelease string; an invalid one
becomes `InvalidInput` via `From<semver::Error> for CargoMonoError`. -/
def mkPrerelease (l : Str) : Except CargoMonoError Str :=
  if validPre l then .ok l else .error ⟨.invalidInput, .invalidSemver l⟩

/-- Rust `str::parse::<u64>`: optional leading `+`, then one or more decimal
digits, value below `2 ^ 64`. -/
def parseU64 (l : Str) : Option Nat :=
  let digits : Str :=
    match l with
    | c :: rest => if c = '+' then rest else l
    | [] => l
  if digits ≠ [] ∧ digits.all isDigitChar ∧ charsToNat digits < 2 ^ 64 then
    some (charsToNat digits)
  else none

/-- `next_prerelease` (`versioning.rs`): empty or mismatched prerelease
resets to `preid.1`; a `preid.<n>` suffix increments `n` (a Rust `u64`
addition, so it wraps at `2 ^ 64`); any other suffix resets to `preid.1`. -/
def next_prerelease (current : Version) (preid : Str) : Except CargoMonoError Str :=
  if current.pre = [] then mkPrerelease (preid ++ '.' :: ['1'])
  else if ¬ (preid.isPrefixOf current.pre) then mkPrerelease (preid ++ '.' :: ['1'])
  else
    match current.pre.drop preid.length with
    | c :: numberPart =>
      if c = '.' then
        match parseU64 numberPart with
        | some number => mkPrerelease (preid ++ '.' :: natToChars ((number + 1) % 2 ^ 64))
        | none => mkPrerelease (preid ++ '.' :: ['1'])
      else mkPrerelease (preid ++ '.' :: ['1'])
    | [] => mkPrerelease (preid ++ '.' :: ['1'])

/-- `bump_version` (`versioning.rs`); the `+= 1` component increments are
Rust `u64` additions, so they wrap at `2 ^ 64`. -/
def bump_version (current : Version) (level : BumpLevel) (preid : Option Str) :
    Except CargoMonoError Version :=
  match level with
  | .major => .ok ⟨(current.major + 1) % 2 ^ 64, 0, 0, [], []⟩
  | .minor => .ok ⟨current.major, (current.minor + 1) % 2 ^ 64, 0, [], []⟩
  | .patch => .ok ⟨current.major, current.minor, (current.patch + 1) % 2 ^ 64, [], []⟩
  | .prerelease =>
    match preid with
    | none => .error ⟨.invalidInput, .preidRequired⟩
    | some preid =>
      match next_prerelease current preid with
      | .error e => .error e
      | .ok next_pre =>
        if current.pre.isEmpty || !(preid.isPrefixOf current.pre) then
          .ok ⟨current.major, current.minor, (current.patch + 1) % 2 ^ 64, next_pre, []⟩
        else
          .ok ⟨current.major, current.minor, current.patch, next_pre, []⟩

/-! #### Ordering lemmas for the bump proof -/

theorem identsLt_append_ne_nil : ∀ (l m : List Str), m ≠ [] →
    identsLt l (l ++ m) = true := by
  intro l
  induction l with
  | nil =>
    intro m hm
    match m with
    | p :: ps => rfl
  | cons a as ih =>
    intro m hm
    show identsLt (a :: as) (a :: (as ++ m)) = true
    simp only [identsLt, ih m hm, Bool.or_eq_true, Bool.and_eq_true]
    right
    exact ⟨by simp, trivial⟩

theorem identsLt_append_last {l : List Str} {a b : Str} (h : identLt a b = true) :
    identsLt (l ++ [a]) (l ++ [b]) = true := by
  induction l with
  | nil => simp [identsLt, h]
  | cons x xs ih =>
    show identsLt (x :: (xs ++ [a])) (x :: (xs ++ [b])) = true
    simp only [identsLt, ih, Bool.or_eq_true, Bool.and_eq_true]
    right
    exact ⟨by simp, trivial⟩

theorem identLt_natToChars {m n : Nat} (h : m < n) :
    identLt (natToChars m) (natToChars n) = true := by
  have hm : (natToChars m).all isDigitChar = true :=
    List.all_eq_true.mpr fun c hc => mem_natToChars_isDigit hc
  have hn : (natToChars n).all isDigitChar = true :=
    List.all_eq_true.mpr fun c hc => mem_natToChars_isDigit hc
  simp only [identLt, hm, hn, if_pos, charsToNat_natToChars]
  simp [h]

theorem preLt_of_idents {a b : Str} (ha : a.isEmpty = false)
    (hb : b.isEmpty = false)
    (h : identsLt (splitOnChar '.' a) (splitOnChar '.' b) = true) :
    preLt a b = true := by
  unfold preLt
  rw [ha, hb]
  exact h

theorem preLt_strict_prefix {p : Str} {x : Str} (hp : p ≠ []) (hx : '.' ∉ x) :
    preLt p (p ++ '.' :: x) = true := by
  refine preLt_of_idents ?_ ?_ ?_
  · cases p with
    | nil => exact absurd rfl hp
    | cons a as => rfl
  · cases p with
    | nil => rfl
    | cons a as => rfl
  · rw [splitOnChar_append_cons, splitOnChar_of_not_mem hx]
    exact identsLt_append_ne_nil _ _ (by simp)

theorem preLt_numeric_suffix {p : Str} {m n : Nat} (h : m < n) :
    preLt (p ++ '.' :: natToChars m) (p ++ '.' :: natToChars n) = true := by
  refine preLt_of_idents ?_ ?_ ?_
  · cases p with
    | nil => rfl
    | cons a as => rfl
  · cases p with
    | nil => rfl
    | cons a as => rfl
  · rw [splitOnChar_append_cons, splitOnChar_append_cons,
      splitOnChar_of_not_mem (not_mem_natToChars (c := '.') (by decide)),
      splitOnChar_of_not_mem (not_mem_natToChars (c := '.') (by decide))]
    exact identsLt_append_last (identLt_natToChars h)

theorem semverLt_patch_lt {x y : Version} (h1 : x.major = y.major)
    (h2 : x.minor = y.minor) (h3 : x.patch < y.patch) : semverLt x y = true := by
  simp only [semverLt, Bool.or_eq_true, Bool.and_eq_true, decide_eq_true_eq]
  exact Or.inr ⟨h1, Or.inr ⟨h2, Or.inl h3⟩⟩

theorem semverLt_pre {x y : Version} (h1 : x.major = y.major)
    (h2 : x.minor = y.minor) (h3 : x.patch = y.patch)
    (h4 : preLt x.pre y.pre = true) : semverLt x y = true := by
  simp only [semverLt, Bool.or_eq_true, Bool.and_eq_true, decide_eq_true_eq]
  exact Or.inr ⟨h1, Or.inr ⟨h2, Or.inr ⟨h3, h4⟩⟩⟩

theorem validPre_append_ident {p : Str} {x : Str} (hp : validPre p = true)
    (hx : validPreIdent x = true) (hdot : '.' ∉ x) :
    validPre (p ++ '.' :: x) = true := by
  simp only [validPre, Bool.and_eq_true, List.all_eq_true] at hp ⊢
  constructor
  · cases p with
    | nil => rfl
    | cons a as => rfl
  · intro q hq
    rw [splitOnChar_append_cons, splitOnChar_of_not_mem hdot] at hq
    rcases List.mem_append.mp hq with h | h
    · exact hp.2 q h
    · rw [List.mem_singleton.mp h]
      exact hx

theorem validPreIdent_natToChars {n : Nat} : validPreIdent (natToChars n) = true := by
  have hall : ∀ c ∈ natToChars n, isIdentChar c = true := by
    intro c hc
    have := toNat_of_isDigitChar (mem_natToChars_isDigit hc)
    simp only [isIdentChar, isAlnumChar, Bool.or_eq_true, Bool.and_eq_true,
      decide_eq_true_eq]
    exact Or.inl (Or.inl (Or.inl ⟨this.1, this.2⟩))
  have hdig : (natToChars n).all isDigitChar = true :=
    List.all_eq_true.mpr fun c hc => mem_natToChars_isDigit hc
  simp only [validPreIdent, Bool.and_eq_true, Bool.or_eq_true, List.all_eq_true]
  refine ⟨⟨?_, hall⟩, ?_⟩
  · simp only [Bool.not_eq_true']
    cases hne : natToChars n with
    | nil => exact absurd hne natToChars_ne_nil
    | cons a as => rfl
  · right
    by_cases hz : n = 0
    · left; simp [natToChars, hz]
    · right
      obtain ⟨d, hd1, hd2, hd3⟩ := @head?_natToChars_pos n (by omega)
      rw [hd3]
      simp only [ne_eq, Option.some_inj, decide_eq_true_eq]
      intro he
      have : digitVal (digitChar d) = digitVal '0' := by rw [he]
      rw [digitVal_digitChar hd2] at this
      simp [digitVal] at this
      omega

theorem parseU64_natToChars {n : Nat} (h : n < 2 ^ 64) :
    parseU64 (natToChars n) = some n := by
  rcases hne : natToChars n with _ | ⟨c, rest⟩
  · exact absurd hne natToChars_ne_nil
  have hc : isDigitChar c = true := mem_natToChars_isDigit (by rw [hne]; simp)
  have hcp : ¬ c = '+' := by
    intro he
    subst he
    have h1 := toNat_of_isDigitChar hc
    have h2 : ('+' : Char).toNat = 43 := by decide
    omega
  have hall : (c :: rest).all isDigitChar = true := by
    rw [← hne]
    exact List.all_eq_true.mpr fun d hd => mem_natToChars_isDigit hd
  have hval : charsToNat (c :: rest) = n := by
    rw [← hne, charsToNat_natToChars]
  unfold parseU64
  dsimp only
  rw [if_neg hcp, if_pos ⟨by simp, hall, by rw [hval]; exact h⟩, hval]

/-- C5 (amended): `bump_version` returns a strictly larger version under
SemVer precedence for `Major`, `Minor`, and `Patch` whenever the bumped
component does not overflow `u64` (the Rust `+= 1` wraps at `2 ^ 64`), and
for `Prerelease` whenever the preid is a valid prerelease string and either
the current prerelease is empty or does not start with the preid (with the
patch bump not overflowing), equals the preid exactly, or is `preid.n` for
a decimal `u64` `n` with `n + 1` not overflowing (the cases the claim's
counterexample does not touch). -/
theorem bump_version_strictly_increases (v : Version) (level : BumpLevel)
    (preid : Option Str) (hwf : v.WellFormed)
    (hmaj : level = .major → v.major + 1 < 2 ^ 64)
    (hmin : level = .minor → v.minor + 1 < 2 ^ 64)
    (hpat : level = .patch → v.patch + 1 < 2 ^ 64)
    (hcond : level = .prerelease →
      ∃ p, preid = some p ∧ validPre p = true ∧
        ((v.pre = [] ∨ p.isPrefixOf v.pre = false) ∧ v.patch + 1 < 2 ^ 64 ∨
         (v.pre ≠ [] ∧ v.pre = p) ∨
         ∃ n, n + 1 < 2 ^ 64 ∧ v.pre = p ++ '.' :: natToChars n)) :
    ∃ v', bump_version v level preid = .ok v' ∧ semverLt v v' = true := by
  cases level with
  | major =>
    have hlt : v.major < (v.major + 1) % 2 ^ 64 := by
      rw [Nat.mod_eq_of_lt (hmaj rfl)]
      exact Nat.lt_succ_self _
    refine ⟨_, rfl, ?_⟩
    simp only [semverLt, Bool.or_eq_true, Bool.and_eq_true, decide_eq_true_eq]
    exact Or.inl hlt
  | minor =>
    have hlt : v.minor < (v.minor + 1) % 2 ^ 64 := by
      rw [Nat.mod_eq_of_lt (hmin rfl)]
      exact Nat.lt_succ_self _
    refine ⟨_, rfl, ?_⟩
    simp only [semverLt, Bool.or_eq_true, Bool.and_eq_true, decide_eq_true_eq]
    exact Or.inr ⟨trivial, Or.inl hlt⟩
  | patch =>
    have hlt : v.patch < (v.patch + 1) % 2 ^ 64 := by
      rw [Nat.mod_eq_of_lt (hpat rfl)]
      exact Nat.lt_succ_self _
    exact ⟨_, rfl, semverLt_patch_lt rfl rfl hlt⟩
  | prerelease =>
    obtain ⟨p, hpe, hpv, hcase⟩ := hcond rfl
    subst hpe
    have hvalid1 : validPre (p ++ '.' :: ['1']) = true :=
      validPre_append_ident hpv (by decide) (by decide)
    rcases hcase with ⟨h01, hpb⟩ | ⟨h0, h1⟩ | ⟨n, hn, h1⟩
    · have hpatlt : v.patch < (v.patch + 1) % 2 ^ 64 := by
        rw [Nat.mod_eq_of_lt hpb]
        exact Nat.lt_succ_self _
      have hnext : next_prerelease v p = .ok (p ++ '.' :: ['1']) := by
        by_cases h0 : v.pre = []
        · unfold next_prerelease
          rw [if_pos h0]
          unfold mkPrerelease
          rw [if_pos hvalid1]
        · have h1 : p.isPrefixOf v.pre = false := by
            rcases h01 with h | h
            · exact absurd h h0
            · exact h
          unfold next_prerelease
          rw [if_neg h0, if_pos (by rw [h1]; exact fun hx => by cases hx)]
          unfold mkPrerelease
          rw [if_pos hvalid1]
      have hbranch : (v.pre.isEmpty || !(p.isPrefixOf v.pre)) = true := by
        rcases h01 with h | h
        · rw [h]
          rfl
        · rw [h]
          simp
      refine ⟨⟨v.major, v.minor, (v.patch + 1) % 2 ^ 64, p ++ '.' :: ['1'], []⟩,
        ?_, ?_⟩
      · simp only [bump_version, hnext]
        rw [if_pos hbranch]
      · exact semverLt_patch_lt rfl rfl hpatlt
    · -- current prerelease is exactly the preid
      have hp_ne : p ≠ [] := by rw [← h1]; exact h0
      have hpref : p.isPrefixOf v.pre = true := by
        rw [h1]
        exact List.isPrefixOf_iff_prefix.mpr (List.prefix_refl p)
      have hnext : next_prerelease v p = .ok (p ++ '.' :: ['1']) := by
        unfold next_prerelease
        rw [if_neg h0, if_neg (by rw [hpref]; simp)]
        have hdrop : v.pre.drop p.length = [] := by
          rw [h1, List.drop_length]
        rw [hdrop]
        unfold mkPrerelease
        rw [if_pos hvalid1]
      refine ⟨⟨v.major, v.minor, v.patch, p ++ '.' :: ['1'], []⟩, ?_, ?_⟩
      · simp only [bump_version, hnext]
        rw [if_neg (by
          rw [hpref]
          simp [List.isEmpty_eq_true, h0])]
      · refine semverLt_pre rfl rfl rfl ?_
        show preLt v.pre (p ++ '.' :: ['1']) = true
        rw [h1]
        exact preLt_strict_prefix hp_ne (by decide)
    · -- current prerelease is `preid.n` for a numeric `n`
      have h0 : v.pre ≠ [] := by rw [h1]; simp
      have hpref : p.isPrefixOf v.pre = true := by
        rw [h1]
        exact List.isPrefixOf_iff_prefix.mpr ⟨'.' :: natToChars n, rfl⟩
      have hvalid2 : validPre (p ++ '.' :: natToChars (n + 1)) = true :=
        validPre_append_ident hpv validPreIdent_natToChars
          (not_mem_natToChars (by decide))
      have hmod : (n + 1) % 2 ^ 64 = n + 1 := Nat.mod_eq_of_lt hn
      have hnext : next_prerelease v p = .ok (p ++ '.' :: natToChars (n + 1)) := by
        unfold next_prerelease
        rw [if_neg h0, if_neg (by rw [hpref]; simp)]
        have hdrop : v.pre.drop p.length = '.' :: natToChars n := by
          rw [h1, List.drop_left]
        rw [hdrop]
        dsimp only
        rw [if_pos rfl, parseU64_natToChars (show n < 2 ^ 64 by omega)]
        dsimp only
        rw [hmod]
        unfold mkPrerelease
        rw [if_pos hvalid2]
      refine ⟨⟨v.major, v.minor, v.patch, p ++ '.' :: natToChars (n + 1), []⟩, ?_, ?_⟩
      · simp only [bump_version, hnext]
        rw [if_neg (by
          rw [hpref]
          simp [List.isEmpty_eq_true, h0])]
      · refine semverLt_pre rfl rfl rfl ?_
        show preLt v.pre (p ++ '.' :: natToChars (n + 1)) = true
        rw [h1]
        exact preLt_numeric_suffix (by omega)

/-- Witness for C5 at the concrete bump `1.2.3-rc.7 → 1.2.3-rc.8` (and a
major bump of `1.2.3`). -/
theorem bump_version_strictly_increases_witness :
    (⟨1, 2, 3, ['r', 'c', '.', '7'], []⟩ : Version).WellFormed ∧
    (∃ v', bump_version ⟨1, 2, 3, ['r', 'c', '.', '7'], []⟩ .prerelease
        (some ['r', 'c']) = .ok v' ∧
      semverLt ⟨1, 2, 3, ['r', 'c', '.', '7'], []⟩ v' = true) ∧
    (∃ v', bump_version ⟨1, 2, 3, [], []⟩ .major none = .ok v' ∧
      semverLt ⟨1, 2, 3, [], []⟩ v' = true) :=
  ⟨by decide,
   bump_version_strictly_increases ⟨1, 2, 3, ['r', 'c', '.', '7'], []⟩ .prerelease
     (some ['r', 'c']) (by decide)
     (fun h => by cases h) (fun h => by cases h) (fun h => by cases h)
     (fun _ => ⟨['r', 'c'], rfl, by decide,
       Or.inr (Or.inr ⟨7, by decide, by decide⟩)⟩),
   bump_version_strictly_increases ⟨1, 2, 3, [], []⟩ .major none (by decide)
     (fun _ => by decide) (fun h => by cases h) (fun h => by cases h)
     (fun h => by cases h)⟩

/-- C5 counterexample: bumping the well-formed version `1.2.3-rc.foo` at
level `Prerelease` with preid `rc` succeeds with `1.2.3-rc.1`, which is
strictly SMALLER than the input under SemVer precedence, refuting the claim
that every bump is strictly increasing. -/
theorem bump_version_prerelease_counterexample :
    bump_version ⟨1, 2, 3, ['r', 'c', '.', 'f', 'o', 'o'], []⟩ .prerelease
      (some ['r', 'c']) = .ok ⟨1, 2, 3, ['r', 'c', '.', '1'], []⟩ ∧
    semverLt ⟨1, 2, 3, ['r', 'c', '.', 'f', 'o', 'o'], []⟩
      ⟨1, 2, 3, ['r', 'c', '.', '1'], []⟩ = false ∧
    semverLt ⟨1, 2, 3, ['r', 'c', '.', '1'], []⟩
      ⟨1, 2, 3, ['r', 'c', '.', 'f', 'o', 'o'], []⟩ = true ∧
    (⟨1, 2, 3, ['r', 'c', '.', 'f', 'o', 'o'], []⟩ : Version).WellFormed ∧
    semverParse ['1', '.', '2', '.', '3', '-', 'r', 'c', '.', 'f', 'o', 'o'] =
      some ⟨1, 2, 3, ['r', 'c', '.', 'f', 'o', 'o'], []⟩ := by
  refine ⟨?_, ?_, ?_, ?_, ?_⟩ <;> decide

/-! ### Release index (`crates/nodeup/src/release_index.rs`) -/

/-- Model of `serde_json::Value` restricted to the shapes `as_bool`/`as_str`
distinguish; arrays and objects are collapsed into `other` (both return
`None` from `as_bool` and `as_str`). -/
inductive JValue
  | null
  | bool (b : Bool)
  | num (n : Int)
  | str (s : Str)
  | other
  deriving DecidableEq, Repr

/-- `serde_json::Value::as_bool`. -/
def JValue.asBool : JValue → Option Bool
  | .bool b => some b
  | _ => none

/-- `serde_json::Value::as_str`. -/
def JValue.asStr : JValue → Option Str
  | .str s => some s
  | _ => none

structure ReleaseEntry where
  version : Str
  lts : JValue
  deriving DecidableEq, Repr

/-- `ReleaseEntry::is_lts` (`release_index.rs`):
`self.lts.as_bool().unwrap_or(false) || self.lts.as_str().is_some()`. -/
def ReleaseEntry.is_lts (e : ReleaseEntry) : Bool :=
  e.lts.asBool.getD false || e.lts.asStr.isSome

/-- `ReleaseIndexClient::resolve_channel` (`release_index.rs`), parameterized
by the fetched index entries: `lts` takes the first `is_lts` entry,
`current`/`latest` the first entry; an empty selection is `NotFound`. -/
def resolve_channel (releases : List ReleaseEntry) (channel : NodeupChannel) :
    Except NodeupError Str :=
  let selected : Option Str :=
    match channel with
    | .latest => releases.head?.map (·.version)
    | .current => releases.head?.map (·.version)
    | .lts => (releases.find? (·.is_lts)).map (·.version)
  match selected with
  | some version => .ok version
  | none => .error ⟨.notFound, .channelEmpty⟩

/-- `normalize_version` (`release_index.rs`): prepend `v` unless present. -/
def normalize_version (version : Str) : Str :=
  match version with
  | c :: rest => if c = 'v' then version else 'v' :: version
  | [] => 'v' :: version

/-- C6 counterexample: an entry whose `lts` field is the EMPTY JSON string.
The claim requires `is_lts` to be false there; the code returns true, so the
claimed biconditional fails at this entry. -/
theorem is_lts_empty_string_counterexample :
    ReleaseEntry.is_lts ⟨['v', '1'], .str []⟩ = true ∧
    ¬ (ReleaseEntry.is_lts ⟨['v', '1'], .str []⟩ = true ↔
        (∃ s : Str, (JValue.str []) = JValue.str s ∧ s ≠ []) ∨
        (JValue.str []) = JValue.bool true) := by
  constructor
  · decide
  · intro hiff
    rcases hiff.mp (by decide) with ⟨s, hs, hne⟩ | h
    · injection hs with hs
      exact hne hs.symm
    · cases h

/-- C6 (amended): `is_lts` returns true iff the `lts` field is ANY JSON
string (including the empty string) or the boolean `true`; it returns false
for `false`, `null`, numbers, arrays, and objects. -/
theorem is_lts_iff (e : ReleaseEntry) :
    e.is_lts = true ↔ (∃ s : Str, e.lts = JValue.str s) ∨ e.lts = JValue.bool true := by
  cases e with
  | mk version lts =>
    cases lts with
    | null => simp [ReleaseEntry.is_lts, JValue.asBool, JValue.asStr]
    | bool b =>
      cases b <;>
        simp [ReleaseEntry.is_lts, JValue.asBool, JValue.asStr]
    | num n => simp [ReleaseEntry.is_lts, JValue.asBool, JValue.asStr]
    | str s => simp [ReleaseEntry.is_lts, JValue.asBool, JValue.asStr]
    | other => simp [ReleaseEntry.is_lts, JValue.asBool, JValue.asStr]

/-! ### Release-index fetch protocol (`release_index.rs`) -/

def RELEASE_INDEX_CACHE_SCHEMA_VERSION : Nat := 1

def MAX_RETRIES : Nat := 3

/-- Outcome of one HTTP request for the index: a transport error, or a
response with a success flag and (when consulted) a decodable body. -/
inductive NetAttempt
  | transportError
  | status (success : Bool) (body : Option (List ReleaseEntry))
  deriving DecidableEq, Repr

/-- An attempt that does not produce entries: transport error, non-2xx
status, or a success response whose body fails to decode. -/
def attemptFails : NetAttempt → Prop
  | .transportError => True
  | .status false _ => True
  | .status true none => True
  | .status true (some _) => False

instance (a : NetAttempt) : Decidable (attemptFails a) := by
  unfold attemptFails
  cases a with
  | transportError => exact inferInstanceAs (Decidable True)
  | status success body =>
    cases success with
    | false => exact inferInstanceAs (Decidable True)
    | true =>
      cases body with
      | none => exact inferInstanceAs (Decidable True)
      | some _ => exact inferInstanceAs (Decidable False)

/-- The retry loop body of `fetch_index_from_network`: `attempt` is the
1-based attempt number, `fuel` the attempts still allowed.  A non-2xx status
or transport error retries unless this was the last attempt; a decode failure
on a 2xx response errors immediately.  The second component is the number of
HTTP requests performed so far (the last attempt number). -/
def fetchNetGo (net : Nat → NetAttempt) :
    Nat → Nat → Except NodeupError (List ReleaseEntry) × Nat
  | _, 0 => (.error ⟨.network, .networkFailed⟩, 0)
  | attempt, fuel + 1 =>
    match net attempt with
    | .status true (some entries) => (.ok entries, attempt)
    | .status true none => (.error ⟨.network, .networkFailed⟩, attempt)
    | .status false _ =>
      if fuel = 0 then (.error ⟨.network, .networkFailed⟩, attempt)
      else fetchNetGo net (attempt + 1) fuel
    | .transportError =>
      if fuel = 0 then (.error ⟨.network, .networkFailed⟩, attempt)
      else fetchNetGo net (attempt + 1) fuel

/-- `ReleaseIndexClient::fetch_index_from_network`: attempts `1..=3`. -/
def fetch_index_from_network (net : Nat → NetAttempt) :
    Except NodeupError (List ReleaseEntry) × Nat :=
  fetchNetGo net 1 MAX_RETRIES

/-- On-disk state of the release-index cache file. -/
inductive CacheFile
  | absent
  | corrupt
  | payload (schema_version : Nat) (fetched_at : Nat) (entries : List ReleaseEntry)
  deriving DecidableEq, Repr

/-- `ReleaseIndexClient::read_cached_index`: absent, unreadable or
undecodable files, schema mismatches, and future timestamps are cache
misses; otherwise the entries plus the cache age. -/
def read_cached_index (cache : CacheFile) (now : Nat) :
    Option (List ReleaseEntry × Nat) :=
  match cache with
  | .absent => none
  | .corrupt => none
  | .payload schema fetched entries =>
    if schema ≠ RELEASE_INDEX_CACHE_SCHEMA_VERSION then none
    else if fetched > now then none
    else some (entries, now - fetched)

/-- `ReleaseIndexClient::fetch_index`: fresh cache short-circuits, expired or
missing cache goes to the network, and a network failure falls back to a
stale decodable cache when one exists.  The second component counts HTTP
requests. -/
def fetch_index (cache : CacheFile) (now ttl : Nat) (net : Nat → NetAttempt) :
    Except NodeupError (List ReleaseEntry) × Nat :=
  match read_cached_index cache now with
  | some cached =>
    if cached.2 ≤ ttl then (.ok cached.1, 0)
    else
      match fetch_index_from_network net with
      | (.ok entries, calls) => (.ok entries, calls)
      | (.error _, calls) => (.ok cached.1, calls)
  | none =>
    match fetch_index_from_network net with
    | (.ok entries, calls) => (.ok entries, calls)
    | (.error e, calls) => (.error e, calls)

theorem fetchNetGo_all_fail (net : Nat → NetAttempt) :
    ∀ fuel attempt, 1 ≤ fuel →
      (∀ k, attempt ≤ k → k < attempt + fuel → attemptFails (net k)) →
      ∃ calls, fetchNetGo net attempt fuel =
        (.error ⟨.network, .networkFailed⟩, calls) := by
  intro fuel
  induction fuel with
  | zero => intro attempt h1 _; omega
  | succ f ih =>
    intro attempt _ hfail
    have hthis := hfail attempt (Nat.le_refl _) (by omega)
    unfold fetchNetGo
    rcases hnet : net attempt with _ | ⟨success, body⟩
    · by_cases hf : f = 0
      · subst hf; exact ⟨attempt, by simp⟩
      · rw [if_neg hf]
        exact ih (attempt + 1) (by omega)
          (fun k hk1 hk2 => hfail k (by omega) (by omega))
    · rw [hnet] at hthis
      cases success with
      | false =>
        by_cases hf : f = 0
        · subst hf; exact ⟨attempt, by simp⟩
        · rw [if_neg hf]
          exact ih (attempt + 1) (by omega)
            (fun k hk1 hk2 => hfail k (by omega) (by omega))
      | true =>
        cases body with
        | none => exact ⟨attempt, by simp⟩
        | some entries => exact absurd hthis (by simp [attemptFails])

/-- With only non-2xx responses (the stubbed-500 scenario), the retry loop
performs exactly the last attempt number of requests. -/
theorem fetchNetGo_all_status_fail (net : Nat → NetAttempt) :
    ∀ fuel attempt, 1 ≤ fuel →
      (∀ k, attempt ≤ k → k < attempt + fuel → ∃ b, net k = .status false b) →
      fetchNetGo net attempt fuel =
        (.error ⟨.network, .networkFailed⟩, attempt + fuel - 1) := by
  intro fuel
  induction fuel with
  | zero => intro attempt h1 _; omega
  | succ f ih =>
    intro attempt _ hfail
    obtain ⟨b, hb⟩ := hfail attempt (Nat.le_refl _) (by omega)
    unfold fetchNetGo
    rw [hb]
    by_cases hf : f = 0
    · subst hf; simp
    · rw [if_neg hf, ih (attempt + 1) (by omega)
        (fun k hk1 hk2 => hfail k (by omega) (by omega))]
      have heq : attempt + 1 + f - 1 = attempt + (f + 1) - 1 := by omega
      rw [heq]

theorem fetchNetGo_calls_le (net : Nat → NetAttempt) :
    ∀ fuel attempt, (fetchNetGo net attempt fuel).2 ≤ attempt + fuel - 1 := by
  intro fuel
  induction fuel with
  | zero => intro attempt; simp [fetchNetGo]
  | succ f ih =>
    intro attempt
    unfold fetchNetGo
    rcases net attempt with _ | ⟨success, body⟩
    · by_cases hf : f = 0
      · subst hf; simp
      · rw [if_neg hf]
        dsimp only
        have := ih (attempt + 1)
        omega
    · cases success with
      | false =>
        by_cases hf : f = 0
        · subst hf; simp
        · rw [if_neg hf]
          dsimp only
          have := ih (attempt + 1)
          omega
      | true =>
        cases body with
        | none => simp
        | some entries => simp

theorem fetchNetGo_calls_ge (net : Nat → NetAttempt) :
    ∀ fuel attempt, 1 ≤ fuel → attempt ≤ (fetchNetGo net attempt fuel).2 := by
  intro fuel
  induction fuel with
  | zero => intro attempt h; omega
  | succ f ih =>
    intro attempt _
    unfold fetchNetGo
    rcases net attempt with _ | ⟨success, body⟩
    · by_cases hf : f = 0
      · subst hf; simp
      · rw [if_neg hf]
        dsimp only
        have := ih (attempt + 1) (by omega)
        omega
    · cases success with
      | false =>
        by_cases hf : f = 0
        · subst hf; simp
        · rw [if_neg hf]
          dsimp only
          have := ih (attempt + 1) (by omega)
          omega
      | true =>
        cases body with
        | none => simp
        | some entries => simp

/-- C3: the cache protocol of `fetch_index`.  A decodable cache with
matching schema, a timestamp not in the future, and age within the TTL is
returned with zero HTTP requests; an absent, undecodable, or expired cache
reaches the network with at most 3 requests; when every network attempt
fails, a decodable stale cache is returned successfully, and the network
error surfaces only when no decodable cache exists; with only non-2xx
responses the endpoint is called exactly 3 times. -/
theorem fetch_index_cache_protocol (cache : CacheFile) (now ttl : Nat)
    (net : Nat → NetAttempt) :
    (∀ fetched entries,
      cache = .payload RELEASE_INDEX_CACHE_SCHEMA_VERSION fetched entries →
      fetched ≤ now → now - fetched ≤ ttl →
      fetch_index cache now ttl net = (.ok entries, 0)) ∧
    ((read_cached_index cache now = none ∨
      (∃ c, read_cached_index cache now = some c ∧ ttl < c.2)) →
      1 ≤ (fetch_index cache now ttl net).2 ∧
      (fetch_index cache now ttl net).2 ≤ 3) ∧
    (∀ entries age, read_cached_index cache now = some (entries, age) →
      ttl < age → (∀ k, 1 ≤ k → k ≤ 3 → attemptFails (net k)) →
      ∃ calls, fetch_index cache now ttl net = (.ok entries, calls)) ∧
    (read_cached_index cache now = none →
      (∀ k, 1 ≤ k → k ≤ 3 → attemptFails (net k)) →
      ∃ calls, fetch_index cache now ttl net =
        (.error ⟨.network, .networkFailed⟩, calls)) ∧
    (∀ entries age, read_cached_index cache now = some (entries, age) →
      ttl < age → (∀ k, 1 ≤ k → k ≤ 3 → ∃ b, net k = .status false b) →
      fetch_index cache now ttl net = (.ok entries, 3)) := by
  refine ⟨?_, ?_, ?_, ?_, ?_⟩
  · intro fetched entries hcache hle httl
    subst hcache
    have hread : read_cached_index
        (.payload RELEASE_INDEX_CACHE_SCHEMA_VERSION fetched entries) now =
        some (entries, now - fetched) := by
      unfold read_cached_index
      dsimp only
      rw [if_neg (by simp), if_neg (by omega)]
    unfold fetch_index
    rw [hread]
    dsimp only
    rw [if_pos httl]
  · intro hmiss
    have hle := fetchNetGo_calls_le net MAX_RETRIES 1
    have hge := fetchNetGo_calls_ge net MAX_RETRIES 1 (by decide)
    unfold fetch_index
    rcases hread : read_cached_index cache now with _ | c
    · dsimp only
      rcases hnet : fetch_index_from_network net with ⟨res, calls⟩
      unfold fetch_index_from_network at hnet
      rw [hnet] at hle hge
      cases res with
      | ok entries => simpa using ⟨hge, by simpa [MAX_RETRIES] using hle⟩
      | error e => simpa using ⟨hge, by simpa [MAX_RETRIES] using hle⟩
    · rcases hmiss with h | ⟨c2, hc2, httl⟩
      · rw [hread] at h; cases h
      · rw [hread] at hc2
        injection hc2 with hc2
        subst hc2
        dsimp only
        rw [if_neg (by omega)]
        rcases hnet : fetch_index_from_network net with ⟨res, calls⟩
        unfold fetch_index_from_network at hnet
        rw [hnet] at hle hge
        cases res with
        | ok entries => simpa using ⟨hge, by simpa [MAX_RETRIES] using hle⟩
        | error e => simpa using ⟨hge, by simpa [MAX_RETRIES] using hle⟩
  · intro entries age hread httl hfail
    obtain ⟨calls, hcalls⟩ := fetchNetGo_all_fail net MAX_RETRIES 1 (by decide)
      (fun k hk1 hk2 => hfail k hk1 (by
        simp only [MAX_RETRIES] at hk2
        omega))
    refine ⟨calls, ?_⟩
    unfold fetch_index
    rw [hread]
    dsimp only
    rw [if_neg (by omega)]
    unfold fetch_index_from_network
    rw [hcalls]
  · intro hread hfail
    obtain ⟨calls, hcalls⟩ := fetchNetGo_all_fail net MAX_RETRIES 1 (by decide)
      (fun k hk1 hk2 => hfail k hk1 (by
        simp only [MAX_RETRIES] at hk2
        omega))
    refine ⟨calls, ?_⟩
    unfold fetch_index
    rw [hread]
    dsimp only
    unfold fetch_index_from_network
    rw [hcalls]
  · intro entries age hread httl hfail
    have hcalls := fetchNetGo_all_status_fail net MAX_RETRIES 1 (by decide)
      (fun k hk1 hk2 => hfail k hk1 (by
        simp only [MAX_RETRIES] at hk2
        omega))
    unfold fetch_index
    rw [hread]
    dsimp only
    rw [if_neg (by omega)]
    unfold fetch_index_from_network
    rw [hcalls]
    rfl

/-- Witness for C3: the literal stale-cache-fallback scenario (cache written
3600 s ago, TTL 60 s, endpoint always answers 500) returns the cached entry
with exactly 3 HTTP requests, and a fresh cache is returned with zero
requests. -/
theorem fetch_index_cache_protocol_witness :
    fetch_index (.payload 1 0 [⟨['v', '1'], .bool false⟩]) 3600 60
      (fun _ => .status false none) = (.ok [⟨['v', '1'], .bool false⟩], 3) ∧
    fetch_index (.payload 1 3600 [⟨['v', '1'], .bool false⟩]) 3600 60
      (fun _ => .status false none) = (.ok [⟨['v', '1'], .bool false⟩], 0) :=
  ⟨(fetch_index_cache_protocol (.payload 1 0 [⟨['v', '1'], .bool false⟩]) 3600 60
      (fun _ => .status false none)).2.2.2.2 [⟨['v', '1'], .bool false⟩] 3600
      (by decide) (by decide) (fun k _ _ => ⟨none, rfl⟩),
   (fetch_index_cache_protocol (.payload 1 3600 [⟨['v', '1'], .bool false⟩]) 3600 60
      (fun _ => .status false none)).1 3600 [⟨['v', '1'], .bool false⟩]
      rfl (by decide) (by decide)⟩

/-! ### Overrides (`crates/nodeup/src/overrides.rs`) and resolver
(`crates/nodeup/src/resolver.rs`)

Paths are canonical absolute path strings; canonicalization itself touches
the filesystem and happens before the logic modelled here. -/

structure OverrideEntry where
  path : Str
  selector : Str
  deriving DecidableEq, Repr

/-- Components of a canonical absolute `/`-separated path
(`std::path::Path::components`, root and empty segments dropped). -/
def pathComponents (l : Str) : List Str :=
  (splitOnChar '/' l).filter (fun p => p ≠ [])

/-- The match test of `resolve_for_path`:
`absolute == candidate || absolute.starts_with(&candidate)` —
`PathBuf` equality or component-wise prefix. -/
def pathMatches (absolute entryPath : Str) : Bool :=
  absolute = entryPath ||
    (pathComponents entryPath).isPrefixOf (pathComponents absolute)

/-- Stable insertion for the descending-length sort
(`entries.sort_by_key(Reverse(entry.path.len()))`, Rust's stable sort). -/
def insertByLenDesc (e : OverrideEntry) : List OverrideEntry → List OverrideEntry
  | [] => [e]
  | x :: xs =>
    if e.path.length < x.path.length then x :: insertByLenDesc e xs
    else e :: x :: xs

def sortByLenDesc : List OverrideEntry → List OverrideEntry
  | [] => []
  | x :: xs => insertByLenDesc x (sortByLenDesc xs)

/-- `OverrideStore::resolve_for_path`: sort entries by path length
descending, return the first entry equal to or a path-prefix of the
canonical absolute path. -/
def resolve_for_path (entries : List OverrideEntry) (absolute : Str) :
    Option OverrideEntry :=
  (sortByLenDesc entries).find? (fun e => pathMatches absolute e.path)

inductive RuntimeSelectorSource
  | explicitSrc
  | overrideSrc
  | defaultSrc
  deriving DecidableEq, Repr

inductive ResolvedRuntimeTarget
  | version (version : Str)
  | linkedPath (name : Str) (path : Str)
  deriving DecidableEq, Repr

structure ResolvedRuntime where
  source : RuntimeSelectorSource
  selector : RuntimeSelector
  target : ResolvedRuntimeTarget
  deriving DecidableEq, Repr

/-- The state `RuntimeResolver` reads: the overrides document's entries, the
settings document (default selector and linked runtimes), and the release
index used for channel resolution. -/
structure ResolverState where
  entries : List OverrideEntry
  defaultSelector : Option Str
  linked : List (Str × Str)
  index : List ReleaseEntry

/-- `BTreeMap::get` over the linked-runtimes map. -/
def lookupLinked (linked : List (Str × Str)) (name : Str) : Option Str :=
  (linked.find? (fun p => p.1 = name)).map (·.2)

/-- `RuntimeResolver::resolve_selector_with_source` (`resolver.rs`). -/
def resolve_selector_with_source (st : ResolverState) (selector_value : Str)
    (source : RuntimeSelectorSource) : Except NodeupError ResolvedRuntime :=
  match RuntimeSelector.parse selector_value with
  | .error e => .error e
  | .ok sel =>
    match sel with
    | .version v =>
      .ok ⟨source, .version v, .version (normalize_version (renderVersion v))⟩
    | .channel ch =>
      match resolve_channel st.index ch with
      | .error e => .error e
      | .ok version => .ok ⟨source, .channel ch, .version version⟩
    | .linkedName name =>
      match lookupLinked st.linked name with
      | some path => .ok ⟨source, .linkedName name, .linkedPath name path⟩
      | none => .error ⟨.notFound, .linkedMissing name⟩

/-- `RuntimeResolver::resolve_with_precedence` (`resolver.rs`): explicit
selector, then directory override, then default selector, else `NotFound`. -/
def resolve_with_precedence (st : ResolverState) (explicitSel : Option Str)
    (path : Str) : Except NodeupError ResolvedRuntime :=
  match explicitSel with
  | some selector => resolve_selector_with_source st selector .explicitSrc
  | none =>
    match resolve_for_path st.entries path with
    | some entry => resolve_selector_with_source st entry.selector .overrideSrc
    | none =>
      match st.defaultSelector with
      | some selector => resolve_selector_with_source st selector .defaultSrc
      | none => .error ⟨.notFound, .noSelectorResolved⟩

theorem mem_insertByLenDesc {e x : OverrideEntry} :
    ∀ {l}, x ∈ insertByLenDesc e l ↔ x = e ∨ x ∈ l := by
  intro l
  induction l with
  | nil => simp [insertByLenDesc]
  | cons y ys ih =>
    unfold insertByLenDesc
    by_cases hc : e.path.length < y.path.length
    · rw [if_pos hc]
      simp only [List.mem_cons, ih]
      tauto
    · rw [if_neg hc]
      simp only [List.mem_cons]

theorem mem_sortByLenDesc {x : OverrideEntry} :
    ∀ {l}, x ∈ sortByLenDesc l ↔ x ∈ l := by
  intro l
  induction l with
  | nil => simp [sortByLenDesc]
  | cons y ys ih =>
    unfold sortByLenDesc
    rw [mem_insertByLenDesc]
    simp only [List.mem_cons, ih]

/-- C1: the precedence chain of `resolve_with_precedence` — an explicit
selector wins; otherwise a matching override entry's selector resolves with
source Override (and some matching entry is found whenever one matches);
otherwise the default selector resolves with source Default; otherwise the
call fails NotFound.  Concretely, with default `v22.1.0` and override
`/project → v24.0.0`, resolving from `/project/sub` yields `v24.0.0` with
source Override and from `/elsewhere` yields `v22.1.0` with source
Default. -/
theorem resolve_with_precedence_chain :
    (∀ st s path, resolve_with_precedence st (some s) path =
      resolve_selector_with_source st s .explicitSrc) ∧
    (∀ st path e, resolve_for_path st.entries path = some e →
      resolve_with_precedence st none path =
        resolve_selector_with_source st e.selector .overrideSrc ∧
      pathMatches path e.path = true) ∧
    (∀ (st : ResolverState) path, (∃ e ∈ st.entries, pathMatches path e.path) →
      ∃ e, resolve_for_path st.entries path = some e) ∧
    (∀ st path d, resolve_for_path st.entries path = none →
      st.defaultSelector = some d →
      resolve_with_precedence st none path =
        resolve_selector_with_source st d .defaultSrc) ∧
    (∀ st path, resolve_for_path st.entries path = none →
      st.defaultSelector = none →
      resolve_with_precedence st none path =
        .error ⟨.notFound, .noSelectorResolved⟩) ∧
    (resolve_with_precedence
        ⟨[⟨['/', 'p', 'r', 'o', 'j', 'e', 'c', 't'],
           ['v', '2', '4', '.', '0', '.', '0']⟩],
         some ['v', '2', '2', '.', '1', '.', '0'], [], []⟩ none
        ['/', 'p', 'r', 'o', 'j', 'e', 'c', 't', '/', 's', 'u', 'b'] =
      .ok ⟨.overrideSrc, .version ⟨24, 0, 0, [], []⟩,
        .version ['v', '2', '4', '.', '0', '.', '0']⟩) ∧
    (resolve_with_precedence
        ⟨[⟨['/', 'p', 'r', 'o', 'j', 'e', 'c', 't'],
           ['v', '2', '4', '.', '0', '.', '0']⟩],
         some ['v', '2', '2', '.', '1', '.', '0'], [], []⟩ none
        ['/', 'e', 'l', 's', 'e', 'w', 'h', 'e', 'r', 'e'] =
      .ok ⟨.defaultSrc, .version ⟨22, 1, 0, [], []⟩,
        .version ['v', '2', '2', '.', '1', '.', '0']⟩) := by
  refine ⟨?_, ?_, ?_, ?_, ?_, by decide, by decide⟩
  · intro st s path
    rfl
  · intro st path e he
    refine ⟨?_, ?_⟩
    · unfold resolve_with_precedence
      rw [he]
    · have he2 : (sortByLenDesc st.entries).find?
          (fun x => pathMatches path x.path) = some e := he
      have h3 := List.find?_some he2
      exact h3
  · intro st path ⟨e, hmem, hmatch⟩
    rcases hf : resolve_for_path st.entries path with _ | e2
    · exfalso
      have : (sortByLenDesc st.entries).find?
          (fun e => pathMatches path e.path) = none := hf
      rw [List.find?_eq_none] at this
      exact absurd hmatch (by simpa using this e (mem_sortByLenDesc.mpr hmem))
    · exact ⟨e2, rfl⟩
  · intro st path d hnone hd
    unfold resolve_with_precedence
    rw [hnone, hd]
  · intro st path hnone hd
    unfold resolve_with_precedence
    rw [hnone, hd]

/-- Witness for C1 at the override-instance: the matching-entry existence
part applied to the concrete store of the scenario. -/
theorem resolve_with_precedence_chain_witness :
    ∃ e, resolve_for_path
      [⟨['/', 'p', 'r', 'o', 'j', 'e', 'c', 't'],
         ['v', '2', '4', '.', '0', '.', '0']⟩]
      ['/', 'p', 'r', 'o', 'j', 'e', 'c', 't', '/', 's', 'u', 'b'] = some e :=
  resolve_with_precedence_chain.2.2.1
    ⟨[⟨['/', 'p', 'r', 'o', 'j', 'e', 'c', 't'],
       ['v', '2', '4', '.', '0', '.', '0']⟩],
     some ['v', '2', '2', '.', '1', '.', '0'], [], []⟩
    ['/', 'p', 'r', 'o', 'j', 'e', 'c', 't', '/', 's', 'u', 'b']
    ⟨⟨['/', 'p', 'r', 'o', 'j', 'e', 'c', 't'],
      ['v', '2', '4', '.', '0', '.', '0']⟩, by decide, by decide⟩

/-! ### Persistence of the settings and overrides documents
(`crates/nodeup/src/store.rs` lines 124-142, `crates/nodeup/src/overrides.rs`
lines 64-68) -/

/-- One filesystem mutation step observable by a concurrent reader of the
destination file. -/
inductive FsWriteOp
  | createTempFile (dir : Str)
  | writeTempFile (content : Str)
  | renameTempOver (destination : Str)
  | directWrite (destination : Str) (content : Str)
  deriving DecidableEq, Repr

/-- `atomic_write` (`store.rs`): `NamedTempFile::new_in(parent)`, write the
full content, flush, then `persist` (rename) over the destination. -/
def atomic_write (parent destination content : Str) : List FsWriteOp :=
  [.createTempFile parent, .writeTempFile content, .renameTempOver destination]

/-- `Store::save_settings` (`store.rs`): serialize, then `atomic_write` into
the settings file. -/
def save_settings_ops (settingsFile parent serialized : Str) : List FsWriteOp :=
  atomic_write parent settingsFile serialized

/-- `OverrideStore::save` (`overrides.rs` lines 64-68): serialize, then one
plain `fs::write(&self.paths.overrides_file, serialized)` — no tempfile and
no rename.  `set` and `unset` both persist through this function. -/
def override_save_ops (overridesFile serialized : Str) : List FsWriteOp :=
  [.directWrite overridesFile serialized]

def opIsRename : FsWriteOp → Bool
  | .renameTempOver _ => true
  | _ => false

def opWritesDestinationDirectly : FsWriteOp → Bool
  | .directWrite _ _ => true
  | _ => false

/-- A persisting write sequence follows the write-tempfile-then-rename
pattern when the destination is never written in place and the new content
arrives by a rename: a concurrent reader then sees either the old or the new
complete document. -/
def atomicPersistPattern (ops : List FsWriteOp) : Bool :=
  ops.all (fun op => !opWritesDestinationDirectly op) && ops.any opIsRename

/-- C7 (code bug): the settings document is persisted with the
tempfile-then-rename pattern, but `OverrideStore::save` — the single
persistence path of `override set` and `override unset` — writes the
overrides document in place with `fs::write`, so an overrides write is NOT
performed as tempfile-plus-rename, contradicting the claimed (and
spec-mandated) atomic-rename pattern. -/
theorem override_save_not_atomic :
    (∀ settingsFile parent serialized,
      atomicPersistPattern (save_settings_ops settingsFile parent serialized) = true) ∧
    (∀ overridesFile serialized,
      override_save_ops overridesFile serialized =
        [.directWrite overridesFile serialized] ∧
      atomicPersistPattern (override_save_ops overridesFile serialized) = false) := by
  constructor
  · intro settingsFile parent serialized
    rfl
  · intro overridesFile serialized
    exact ⟨rfl, rfl⟩

/-! ### Installer (`crates/nodeup/src/installer.rs`) -/

/-- Fuel-guarded whitespace tokenizer (`str::split_whitespace`);
fuel = list length always suffices. -/
def splitWsAux : Nat → Str → List Str
  | 0, _ => []
  | _ + 1, [] => []
  | fuel + 1, c :: rest =>
    if isWs c then splitWsAux fuel rest
    else
      (c :: rest).takeWhile (fun d => !isWs d) ::
        splitWsAux fuel ((c :: rest).dropWhile (fun d => !isWs d))

def splitWs (l : Str) : List Str := splitWsAux l.length l

/-- Strip the trailing carriage return `BufRead::lines` removes. -/
def stripTrailingCR (l : Str) : Str :=
  match l.reverse with
  | '\r' :: t => t.reverse
  | _ => l

/-- `HashMap::insert`: the new binding shadows any previous one. -/
def insertAssoc (k v : Str) (table : List (Str × Str)) : List (Str × Str) :=
  (k, v) :: table.filter (fun p => p.1 ≠ k)

/-- `HashMap::get`. -/
def lookupAssoc (table : List (Str × Str)) (k : Str) : Option Str :=
  (table.find? (fun p => p.1 = k)).map (·.2)

/-- `parse_shasums` (`installer.rs`): for each nonblank line, the first
whitespace-separated token is the checksum and the second, with leading `*`
stripped, the filename; a line without two tokens is `InvalidInput`. -/
def parse_shasums_go (acc : List (Str × Str)) :
    List Str → Except NodeupError (List (Str × Str))
  | [] => .ok acc
  | line :: rest =>
    let trimmed := rustTrim (stripTrailingCR line)
    if trimmed = [] then parse_shasums_go acc rest
    else
      match splitWs trimmed with
      | [] => .error ⟨.invalidInput, .malformedShasums⟩
      | [_] => .error ⟨.invalidInput, .malformedShasums⟩
      | checksum :: filename :: _ =>
        parse_shasums_go
          (insertAssoc (filename.dropWhile (fun c => c = '*')) checksum acc) rest

def parse_shasums (content : Str) : Except NodeupError (List (Str × Str)) :=
  parse_shasums_go [] (splitOnChar '\n' content)

/-- Modelled from the spec: `ensure_version_available` is called by the
installer (`installer.rs` line 57) but its definition is not among the
source files; spec 4.C says it canonicalizes the version and scans the index
entries, failing `NotFound` (with a suggestion) when absent. -/
def ensure_version_available (indexVersions : List Str) (version : Str) :
    Except NodeupError Unit :=
  if normalize_version version ∈ indexVersions then .ok ()
  else .error ⟨.notFound, .versionMissing (normalize_version version)⟩

/-- `ReleaseIndexClient::archive_url` (`release_index.rs`):
`{base}/{version}/node-{version}-{target}.tar.xz` after canonicalizing. -/
def archive_url (base version target : Str) : Str :=
  base ++ '/' :: normalize_version version ++
    '/' :: (['n', 'o', 'd', 'e', '-'] ++ normalize_version version ++
      '-' :: target ++ ['.', 't', 'a', 'r', '.', 'x', 'z'])

/-- `archive_url.rsplit('/').next()`: the last `/`-separated segment. -/
def lastSegment (l : Str) : Str :=
  ((splitOnChar '/' l).getLast?).getD l

inductive InstallState
  | installed
  | alreadyInstalled
  deriving DecidableEq, Repr

structure InstallReport where
  version : Str
  state : InstallState
  deriving DecidableEq, Repr

/-- The environment `ensure_installed` reads: which runtime directories
exist, the release index versions, the detected platform target segment,
whether the per-version install lock can be created, the download base URL,
the fetched sums-file body, and the SHA-256 digest observed for the
downloaded archive bytes (the hash computation is abstracted into this
field). -/
structure InstallEnv where
  installed : List Str
  indexVersions : List Str
  platform : Option Str
  lockFree : Bool
  downloadBase : Str
  shasums : Str
  observedDigest : Str

/-- `RuntimeInstaller::ensure_installed` (`installer.rs`): fast path,
version availability, platform detection, install lock, recheck, download,
sums lookup, digest comparison, extraction.  Returns the report (or error)
together with the resulting set of installed runtime directories —
extraction via tempdir-then-rename is the only step that creates the final
runtime directory, and it runs only after the digests matched. -/
def ensure_installed (env : InstallEnv) (version : Str) :
    Except NodeupError InstallReport × List Str :=
  let canonical := normalize_version version
  if canonical ∈ env.installed then
    (.ok ⟨canonical, .alreadyInstalled⟩, env.installed)
  else
    match ensure_version_available env.indexVersions canonical with
    | .error e => (.error e, env.installed)
    | .ok _ =>
      match env.platform with
      | none => (.error ⟨.unsupportedPlatform, .hostUnsupported⟩, env.installed)
      | some target =>
        if env.lockFree = false then
          (.error ⟨.conflict, .lockHeld canonical⟩, env.installed)
        else if canonical ∈ env.installed then
          (.ok ⟨canonical, .alreadyInstalled⟩, env.installed)
        else
          let archiveFilename :=
            lastSegment (archive_url env.downloadBase canonical target)
          match parse_shasums env.shasums with
          | .error e => (.error e, env.installed)
          | .ok table =>
            match lookupAssoc table archiveFilename with
            | none =>
              (.error ⟨.notFound, .checksumMissing archiveFilename⟩, env.installed)
            | some expected =>
              if expected ≠ env.observedDigest then
                (.error ⟨.conflict,
                  .checksumMismatch archiveFilename expected env.observedDigest⟩,
                 env.installed)
              else
                (.ok ⟨canonical, .installed⟩, canonical :: env.installed)

/-- C2: when the downloaded archive's SHA-256 differs from the digest the
sums file lists for it, `ensure_installed` fails with a Conflict error
carrying the expected and observed digests, and the final runtime directory
for that version is absent afterwards — no extraction happens. -/
theorem checksum_mismatch_fails_conflict (env : InstallEnv)
    (version target expected : Str) (table : List (Str × Str))
    (hnotinst : normalize_version version ∉ env.installed)
    (havail : ensure_version_available env.indexVersions
      (normalize_version version) = .ok ())
    (htarget : env.platform = some target)
    (hlock : env.lockFree = true)
    (hsums : parse_shasums env.shasums = .ok table)
    (hlookup : lookupAssoc table
      (lastSegment (archive_url env.downloadBase (normalize_version version)
        target)) = some expected)
    (hmismatch : expected ≠ env.observedDigest) :
    ensure_installed env version =
      (.error ⟨.conflict,
        .checksumMismatch
          (lastSegment (archive_url env.downloadBase (normalize_version version)
            target)) expected env.observedDigest⟩,
       env.installed) ∧
    normalize_version version ∉ (ensure_installed env version).2 := by
  have hres : ensure_installed env version =
      (.error ⟨.conflict,
        .checksumMismatch
          (lastSegment (archive_url env.downloadBase (normalize_version version)
            target)) expected env.observedDigest⟩,
       env.installed) := by
    unfold ensure_installed
    rw [if_neg hnotinst, havail]
    dsimp only
    rw [htarget]
    dsimp only
    rw [if_neg (by rw [hlock]; simp), if_neg hnotinst, hsums]
    dsimp only
    rw [hlookup]
    dsimp only
    rw [if_pos hmismatch]
  exact ⟨hres, by rw [hres]; exact hnotinst⟩

/-- Witness for C2: the literal checksum-mismatch scenario — the sums file
advertises `deadbeef` for the archive, the observed digest differs, the
install fails Conflict carrying both digests, and no runtime directory
exists afterwards. -/
theorem checksum_mismatch_fails_conflict_witness :
    ensure_installed
      ⟨[], [['v', '2', '2', '.', '1', '.', '0']],
      some ['l', 'i', 'n', 'u', 'x', '-', 'x', '6', '4'], true, ['b'],
      ['d', 'e', 'a', 'd', 'b', 'e', 'e', 'f', ' ', ' ', 'n', 'o', 'd', 'e', '-', 'v', '2', '2', '.', '1', '.', '0', '-', 'l', 'i', 'n', 'u', 'x', '-', 'x', '6', '4', '.', 't', 'a', 'r', '.', 'x', 'z', '\n'],
      ['0', '0']⟩
      ['2', '2', '.', '1', '.', '0'] =
      (.error ⟨.conflict, .checksumMismatch
        ['n', 'o', 'd', 'e', '-', 'v', '2', '2', '.', '1', '.', '0', '-', 'l', 'i', 'n', 'u', 'x', '-', 'x', '6', '4', '.', 't', 'a', 'r', '.', 'x', 'z']
        ['d', 'e', 'a', 'd', 'b', 'e', 'e', 'f'] ['0', '0']⟩, []) ∧
    ['v', '2', '2', '.', '1', '.', '0'] ∉
      (ensure_installed
        ⟨[], [['v', '2', '2', '.', '1', '.', '0']],
      some ['l', 'i', 'n', 'u', 'x', '-', 'x', '6', '4'], true, ['b'],
      ['d', 'e', 'a', 'd', 'b', 'e', 'e', 'f', ' ', ' ', 'n', 'o', 'd', 'e', '-', 'v', '2', '2', '.', '1', '.', '0', '-', 'l', 'i', 'n', 'u', 'x', '-', 'x', '6', '4', '.', 't', 'a', 'r', '.', 'x', 'z', '\n'],
      ['0', '0']⟩
        ['2', '2', '.', '1', '.', '0']).2 :=
  checksum_mismatch_fails_conflict
    ⟨[], [['v', '2', '2', '.', '1', '.', '0']],
      some ['l', 'i', 'n', 'u', 'x', '-', 'x', '6', '4'], true, ['b'],
      ['d', 'e', 'a', 'd', 'b', 'e', 'e', 'f', ' ', ' ', 'n', 'o', 'd', 'e', '-', 'v', '2', '2', '.', '1', '.', '0', '-', 'l', 'i', 'n', 'u', 'x', '-', 'x', '6', '4', '.', 't', 'a', 'r', '.', 'x', 'z', '\n'],
      ['0', '0']⟩
    ['2', '2', '.', '1', '.', '0'] ['l', 'i', 'n', 'u', 'x', '-', 'x', '6', '4'] ['d', 'e', 'a', 'd', 'b', 'e', 'e', 'f']
    [(['n', 'o', 'd', 'e', '-', 'v', '2', '2', '.', '1', '.', '0', '-', 'l', 'i', 'n', 'u', 'x', '-', 'x', '6', '4', '.', 't', 'a', 'r', '.', 'x', 'z'],
      ['d', 'e', 'a', 'd', 'b', 'e', 'e', 'f'])]
    (by decide) (by decide) rfl rfl (by decide) (by decide) (by decide)

/-! ### Workspace model (`crates/cargo-mono/src/workspace.rs`)

Package names are a linearly ordered type (the source uses `String` keys in
`BTreeMap`/`BTreeSet`); paths are lists of `std::path::Path` components. -/

/-- A changed path from the git diff: absolute or repo-relative, as a list
of path components (a leading `.` is the `CurDir` component; interior dots
are normalized away by `Path::components`). -/
structure RPath where
  absolute : Bool
  comps : List Str
  deriving DecidableEq, Repr

structure WorkspacePackage (α : Type) where
  name : α
  directory_relative_path : List Str
  deriving DecidableEq

structure Workspace (α : Type) where
  root : List Str
  packages : List (WorkspacePackage α)
  dependencies : α → List α
  dependents : α → List α

/-- `GLOBAL_IMPACT_FILES` (`workspace.rs` line 12). -/
def GLOBAL_IMPACT_FILES : List (List Str) :=
  [[['C', 'a', 'r', 'g', 'o', '.', 't', 'o', 'm', 'l']],
   [['C', 'a', 'r', 'g', 'o', '.', 'l', 'o', 'c', 'k']],
   [['r', 'u', 's', 't', '-', 't', 'o', 'o', 'l', 'c', 'h', 'a', 'i', 'n']]]

/-- `Workspace::normalize_relative_path`: absolute paths are stripped of the
workspace root (`None` when outside it); relative paths lose one leading
`./`; everything else passes through. -/
def normalize_relative_path (root : List Str) (p : RPath) : Option (List Str) :=
  if p.absolute then
    if root.isPrefixOf p.comps then some (p.comps.drop root.length) else none
  else
    match p.comps with
    | c :: rest => if c = ['.'] then some rest else some p.comps
    | [] => some []

/-- `Workspace::is_global_impact_path`. -/
def is_global_impact_path (root : List Str) (p : RPath) : Bool :=
  match normalize_relative_path root p with
  | some relative => GLOBAL_IMPACT_FILES.any (fun g => relative = g)
  | none => false

def all_package_names {α : Type} (w : Workspace α) : List α :=
  w.packages.map (·.name)

/-- One BFS step of `Workspace::expand_dependents`: insert each dependent
that is not yet in the expanded set, and queue it. -/
def bfsInsert {α : Type} [DecidableEq α] :
    List α → List α → List α → List α × List α
  | [], expanded, queue => (expanded, queue)
  | d :: ds, expanded, queue =>
    if d ∈ expanded then bfsInsert ds expanded queue
    else bfsInsert ds (d :: expanded) (d :: queue)

/-- The BFS loop of `Workspace::expand_dependents`; fuel bounds the queue
work (seeds plus one insertion per workspace member always suffice). -/
def expand_dependents_go {α : Type} [DecidableEq α] (w : Workspace α) :
    Nat → List α → List α → List α
  | 0, _, expanded => expanded
  | _ + 1, [], expanded => expanded
  | fuel + 1, current :: queue, expanded =>
    let step := bfsInsert (w.dependents current) expanded queue
    expand_dependents_go w fuel step.2 step.1

/-- `Workspace::expand_dependents`: transitive closure over the dependents
map, seeds included. -/
def expand_dependents {α : Type} [DecidableEq α] (w : Workspace α)
    (names : List α) : List α :=
  expand_dependents_go w (names.length + w.packages.length) names names

/-- `Workspace::changed_packages`: a global-impact path selects every
member; otherwise the packages whose directory is a component-prefix of some
normalized path, transitively expanded over dependents when requested. -/
def changed_packages {α : Type} [DecidableEq α] (w : Workspace α)
    (changed_paths : List RPath) (include_dependents : Bool) : List α :=
  if changed_paths.any (fun p => is_global_impact_path w.root p) then
    all_package_names w
  else
    let direct := (w.packages.filter (fun pkg =>
      changed_paths.any (fun raw =>
        match normalize_relative_path w.root raw with
        | some relative => pkg.directory_relative_path.isPrefixOf relative
        | none => false))).map (·.name)
    if include_dependents then expand_dependents w direct
    else direct

theorem bfsInsert_expanded_superset {α : Type} [DecidableEq α] :
    ∀ (ds expanded queue : List α) {x}, x ∈ expanded →
      x ∈ (bfsInsert ds expanded queue).1 := by
  intro ds
  induction ds with
  | nil => intro expanded queue x hx; exact hx
  | cons d rest ih =>
    intro expanded queue x hx
    unfold bfsInsert
    by_cases hd : d ∈ expanded
    · rw [if_pos hd]; exact ih _ _ hx
    · rw [if_neg hd]; exact ih _ _ (List.mem_cons_of_mem _ hx)

theorem expand_dependents_go_superset {α : Type} [DecidableEq α]
    (w : Workspace α) : ∀ fuel queue expanded {x}, x ∈ expanded →
      x ∈ expand_dependents_go w fuel queue expanded := by
  intro fuel
  induction fuel with
  | zero => intro queue expanded x hx; exact hx
  | succ f ih =>
    intro queue expanded x hx
    cases queue with
    | nil => exact hx
    | cons current rest =>
      unfold expand_dependents_go
      exact ih _ _ (bfsInsert_expanded_superset _ _ _ hx)

theorem expand_dependents_superset {α : Type} [DecidableEq α]
    (w : Workspace α) (names : List α) {x : α} (hx : x ∈ names) :
    x ∈ expand_dependents w names :=
  expand_dependents_go_superset w _ names names hx

/-- C8: a global-impact path forces the full member set; a path strictly
under a package's directory selects at least that package; and enabling
`include_dependents` yields a superset of the same call without it. -/
theorem changed_packages_properties {α : Type} [DecidableEq α]
    (w : Workspace α) (changed_paths : List RPath) :
    (∀ include_dependents,
      (∃ p ∈ changed_paths, is_global_impact_path w.root p = true) →
      changed_packages w changed_paths include_dependents =
        all_package_names w) ∧
    (∀ include_dependents pkg p relative suffix, p ∈ changed_paths →
      pkg ∈ w.packages → normalize_relative_path w.root p = some relative →
      relative = pkg.directory_relative_path ++ suffix → suffix ≠ [] →
      pkg.name ∈ changed_packages w changed_paths include_dependents) ∧
    (∀ x, x ∈ changed_packages w changed_paths false →
      x ∈ changed_packages w changed_paths true) := by
  refine ⟨?_, ?_, ?_⟩
  · intro include_dependents ⟨p, hp, hglobal⟩
    unfold changed_packages
    rw [if_pos (List.any_eq_true.mpr ⟨p, hp, hglobal⟩)]
  · intro include_dependents pkg p relative suffix hp hpkg hnorm hrel hsuffix
    unfold changed_packages
    by_cases hglobal : changed_paths.any (fun q => is_global_impact_path w.root q) = true
    · rw [if_pos hglobal]
      exact List.mem_map.mpr ⟨pkg, hpkg, rfl⟩
    · rw [if_neg hglobal]
      have hdirect : pkg.name ∈ (w.packages.filter (fun q =>
          changed_paths.any (fun raw =>
            match normalize_relative_path w.root raw with
            | some relative => q.directory_relative_path.isPrefixOf relative
            | none => false))).map (·.name) := by
        refine List.mem_map.mpr ⟨pkg, List.mem_filter.mpr ⟨hpkg, ?_⟩, rfl⟩
        refine List.any_eq_true.mpr ⟨p, hp, ?_⟩
        rw [hnorm]
        exact List.isPrefixOf_iff_prefix.mpr ⟨suffix, hrel.symm⟩
      dsimp only
      cases include_dependents with
      | false => exact hdirect
      | true => exact expand_dependents_superset w _ hdirect
  · intro x hx
    unfold changed_packages at hx ⊢
    by_cases hglobal : changed_paths.any (fun q => is_global_impact_path w.root q) = true
    · rw [if_pos hglobal] at hx ⊢
      exact hx
    · rw [if_neg hglobal] at hx ⊢
      exact expand_dependents_superset w _ hx

/-- Witness for C8 on a two-package workspace: a change under `crates/core`
selects `core`, and a root `Cargo.toml` change selects everything. -/
theorem changed_packages_properties_witness :
    (1 : Nat) ∈ changed_packages
      ⟨[['r']],
       [⟨1, [['c', 'r', 'a', 't', 'e', 's'], ['c', 'o', 'r', 'e']]⟩,
        ⟨2, [['c', 'r', 'a', 't', 'e', 's'], ['a', 'p', 'p']]⟩],
       fun _ => [], fun _ => []⟩
      [⟨false, [['c', 'r', 'a', 't', 'e', 's'], ['c', 'o', 'r', 'e'],
        ['l', 'i', 'b', '.', 'r', 's']]⟩] true ∧
    changed_packages
      ⟨[['r']],
       [⟨1, [['c', 'r', 'a', 't', 'e', 's'], ['c', 'o', 'r', 'e']]⟩,
        ⟨2, [['c', 'r', 'a', 't', 'e', 's'], ['a', 'p', 'p']]⟩],
       fun _ => [], fun _ => []⟩
      [⟨false, [['C', 'a', 'r', 'g', 'o', '.', 't', 'o', 'm', 'l']]⟩] false =
      [1, 2] :=
  ⟨(changed_packages_properties _ _).2.1 true
      ⟨1, [['c', 'r', 'a', 't', 'e', 's'], ['c', 'o', 'r', 'e']]⟩
      ⟨false, [['c', 'r', 'a', 't', 'e', 's'], ['c', 'o', 'r', 'e'],
        ['l', 'i', 'b', '.', 'r', 's']]⟩
      [['c', 'r', 'a', 't', 'e', 's'], ['c', 'o', 'r', 'e'],
        ['l', 'i', 'b', '.', 'r', 's']]
      [['l', 'i', 'b', '.', 'r', 's']]
      (by decide) (by decide) (by decide) (by decide) (by decide),
   (changed_packages_properties _ _).1 false
      ⟨⟨false, [['C', 'a', 'r', 'g', 'o', '.', 't', 'o', 'm', 'l']]⟩,
       by decide, by decide⟩⟩

/-! ### Topological order (`workspace.rs` lines 204-260)

The indegree `BTreeMap<String, usize>` is an association list in `selected`
key order; the `ready` `BTreeSet` is a sorted list (insertion keeps order,
popping takes the head, i.e. the minimum). -/

def lookupKey {α : Type} [DecidableEq α] (k : α) : List (α × Nat) → Option Nat
  | [] => none
  | (a, n) :: t => if a = k then some n else lookupKey k t

def setKey {α : Type} [DecidableEq α] (k : α) (v : Nat) :
    List (α × Nat) → List (α × Nat)
  | [] => []
  | (a, n) :: t => if a = k then (a, v) :: t else (a, n) :: setKey k v t

/-- The indegree initialization of `topological_order`: each selected name
mapped to the count of its intra-selected dependencies. -/
def initIndegree {α : Type} [DecidableEq α] (w : Workspace α)
    (selected : List α) : List (α × Nat) :=
  selected.map (fun name =>
    (name, ((w.dependencies name).filter (fun d => decide (d ∈ selected))).length))

/-- The `for dependent in next { ... }` decrement loop of
`topological_order`: each selected dependent with a positive degree is
decremented, and inserted into the ready set when its degree reaches zero. -/
def applyDecrements {α : Type} [LinearOrder α] (selected : List α) :
    List α → List (α × Nat) → List α → List (α × Nat) × List α
  | [], indeg, ready => (indeg, ready)
  | d :: ds, indeg, ready =>
    if d ∈ selected then
      match lookupKey d indeg with
      | some deg =>
        if 0 < deg then
          if deg - 1 = 0 then
            applyDecrements selected ds (setKey d (deg - 1) indeg)
              (List.orderedInsert (· ≤ ·) d ready)
          else applyDecrements selected ds (setKey d (deg - 1) indeg) ready
        else applyDecrements selected ds indeg ready
      | none => applyDecrements selected ds indeg ready
    else applyDecrements selected ds indeg ready

/-- The `while let Some(name) = ready.first()` loop of `topological_order`;
`fuel = selected.length` always suffices because every iteration appends one
distinct selected name to `ordered`. -/
def topoLoop {α : Type} [LinearOrder α] (w : Workspace α) (selected : List α) :
    Nat → List (α × Nat) → List α → List α → List α
  | 0, _, _, ordered => ordered
  | fuel + 1, indeg, ready, ordered =>
    match ready with
    | [] => ordered
    | name :: rest =>
      let step := applyDecrements selected (w.dependents name) indeg rest
      topoLoop w selected fuel step.1 step.2 (ordered ++ [name])

/-- `Workspace::topological_order`: Kahn's algorithm with minimum-name
tie-break; a length mismatch at the end is a dependency cycle
(`Conflict`). -/
def topological_order {α : Type} [LinearOrder α] (w : Workspace α)
    (selected : List α) : Except CargoMonoError (List α) :=
  let indeg := initIndegree w selected
  let ready := (indeg.filter (fun p => p.2 = 0)).map (·.1)
  let ordered := topoLoop w selected selected.length indeg ready []
  if ordered.length = selected.length then .ok ordered
  else .error ⟨.conflict, .cycleDetected⟩

/-! #### Association list and ordered-insert lemmas -/

theorem setKey_keys {α : Type} [DecidableEq α] (k : α) (v : Nat) :
    ∀ l : List (α × Nat), (setKey k v l).map Prod.fst = l.map Prod.fst := by
  intro l
  induction l with
  | nil => rfl
  | cons p t ih =>
    rcases p with ⟨a, n⟩
    unfold setKey
    by_cases ha : a = k
    · rw [if_pos ha]
      simp
    · rw [if_neg ha]
      simp [ih]

theorem lookupKey_setKey_self {α : Type} [DecidableEq α] {k : α} {v : Nat} :
    ∀ {l : List (α × Nat)} {d}, lookupKey k l = some d →
      lookupKey k (setKey k v l) = some v := by
  intro l
  induction l with
  | nil => intro d h; cases h
  | cons p t ih =>
    rcases p with ⟨a, n⟩
    intro d h
    unfold setKey
    by_cases ha : a = k
    · rw [if_pos ha]
      unfold lookupKey
      rw [if_pos ha]
    · rw [if_neg ha]
      unfold lookupKey at h ⊢
      rw [if_neg ha] at h ⊢
      exact ih h

theorem lookupKey_setKey_other {α : Type} [DecidableEq α] {x k : α} {v : Nat}
    (hne : x ≠ k) : ∀ l : List (α × Nat),
      lookupKey x (setKey k v l) = lookupKey x l := by
  intro l
  induction l with
  | nil => rfl
  | cons p t ih =>
    rcases p with ⟨a, n⟩
    unfold setKey
    by_cases ha : a = k
    · rw [if_pos ha]
      unfold lookupKey
      rw [if_neg (by rw [ha]; exact fun he => hne he.symm),
        if_neg (by rw [ha]; exact fun he => hne he.symm)]
    · rw [if_neg ha]
      unfold lookupKey
      by_cases hax : a = x
      · rw [if_pos hax, if_pos hax]
      · rw [if_neg hax, if_neg hax]
        exact ih

theorem nodup_orderedInsert {α : Type} [LinearOrder α] {a : α} {l : List α}
    (ha : a ∉ l) (hl : l.Nodup) : (List.orderedInsert (· ≤ ·) a l).Nodup := by
  induction l with
  | nil => simp
  | cons x xs ih =>
    unfold List.orderedInsert
    by_cases hle : a ≤ x
    · rw [if_pos hle]
      exact List.nodup_cons.mpr ⟨ha, hl⟩
    · rw [if_neg hle]
      have hax : a ∉ xs := fun h => ha (List.mem_cons_of_mem _ h)
      have hx : x ∉ xs := (List.nodup_cons.mp hl).1
      refine List.nodup_cons.mpr ⟨?_, ih hax (List.nodup_cons.mp hl).2⟩
      intro hmem
      rcases (List.mem_orderedInsert _).mp hmem with h | h
      · exact ha (by rw [h]; exact List.mem_cons_self _ _)
      · exact hx h

theorem lookupKey_map_of_mem {α : Type} [DecidableEq α] {f : α → Nat} :
    ∀ {selected : List α} {n}, n ∈ selected →
      lookupKey n (selected.map (fun name => (name, f name))) = some (f n) := by
  intro selected
  induction selected with
  | nil => intro n h; cases h
  | cons x xs ih =>
    intro n h
    simp only [List.map_cons, lookupKey]
    by_cases hx : x = n
    · rw [if_pos hx, hx]
    · rw [if_neg hx]
      refine ih ?_
      rcases List.mem_cons.mp h with h2 | h2
      · exact absurd h2.symm hx
      · exact h2

/-! #### Degree counting -/

/-- The number of intra-selected dependencies of `n` not yet emitted: the
quantity the algorithm's indegree entry for `n` tracks. -/
def degCount {α : Type} [DecidableEq α] (w : Workspace α)
    (selected ordered : List α) (n : α) : Nat :=
  ((w.dependencies n).filter (fun d => decide (d ∈ selected ∧ d ∉ ordered))).length

theorem degCount_nil {α : Type} [DecidableEq α] (w : Workspace α)
    (selected : List α) (n : α) :
    degCount w selected [] n =
      ((w.dependencies n).filter (fun d => decide (d ∈ selected))).length := by
  unfold degCount
  congr 1
  apply List.filter_congr
  intro d _
  simp

theorem degCount_zero_mem {α : Type} [DecidableEq α] {w : Workspace α}
    {selected ordered : List α} {n d : α}
    (h : degCount w selected ordered n = 0) (hd : d ∈ w.dependencies n)
    (hsel : d ∈ selected) : d ∈ ordered := by
  by_contra hord
  have hmem : d ∈ (w.dependencies n).filter
      (fun d => decide (d ∈ selected ∧ d ∉ ordered)) :=
    List.mem_filter.mpr ⟨hd, by simp [hsel, hord]⟩
  unfold degCount at h
  rw [List.length_eq_zero] at h
  rw [h] at hmem
  cases hmem

theorem degCount_append_not_mem {α : Type} [DecidableEq α] {w : Workspace α}
    {selected ordered : List α} {n name : α} (h : name ∉ w.dependencies n) :
    degCount w selected (ordered ++ [name]) n = degCount w selected ordered n := by
  unfold degCount
  congr 1
  apply List.filter_congr
  intro d hd
  have hdn : d ≠ name := fun he => h (he ▸ hd)
  simp [hdn]

theorem length_filter_ne_of_nodup {α : Type} [DecidableEq α] :
    ∀ {m : List α} {name : α}, m.Nodup → name ∈ m →
      (m.filter (fun d => decide (d ≠ name))).length + 1 = m.length := by
  intro m
  induction m with
  | nil => intro name _ hmem; cases hmem
  | cons x xs ih =>
    intro name hnodup hmem
    have hx : x ∉ xs := (List.nodup_cons.mp hnodup).1
    have hxs : xs.Nodup := (List.nodup_cons.mp hnodup).2
    rcases List.mem_cons.mp hmem with he | he
    · subst he
      rw [List.filter_cons_of_neg (by simp)]
      have hall : xs.filter (fun d => decide (d ≠ name)) = xs := by
        apply List.filter_eq_self.mpr
        intro a ha
        simp only [decide_eq_true_eq]
        intro hax
        exact hx (hax ▸ ha)
      rw [hall, List.length_cons]
    · have hxn : x ≠ name := fun he2 => hx (he2 ▸ he)
      rw [List.filter_cons_of_pos (by simp [hxn])]
      rw [List.length_cons, List.length_cons, ih hxs he]

theorem degCount_append_mem {α : Type} [DecidableEq α] {w : Workspace α}
    {selected ordered : List α} {n name : α}
    (hnodup : (w.dependencies n).Nodup) (h : name ∈ w.dependencies n)
    (hsel : name ∈ selected) (hord : name ∉ ordered) :
    degCount w selected (ordered ++ [name]) n + 1 = degCount w selected ordered n := by
  unfold degCount
  have hsplit : (w.dependencies n).filter
      (fun d => decide (d ∈ selected ∧ d ∉ ordered ++ [name])) =
      ((w.dependencies n).filter (fun d => decide (d ∈ selected ∧ d ∉ ordered))).filter
        (fun d => decide (d ≠ name)) := by
    rw [List.filter_filter]
    apply List.filter_congr
    intro d _
    by_cases hdsel : d ∈ selected
    · by_cases hdord : d ∈ ordered
      · simp [hdsel, hdord]
      · by_cases hdn : d = name
        · subst hdn
          simp [hdsel, hdord]
        · simp [hdsel, hdord, hdn]
    · simp [hdsel]
  have hfnodup : ((w.dependencies n).filter
      (fun d => decide (d ∈ selected ∧ d ∉ ordered))).Nodup :=
    List.Nodup.filter _ hnodup
  have hfmem : name ∈ (w.dependencies n).filter
      (fun d => decide (d ∈ selected ∧ d ∉ ordered)) :=
    List.mem_filter.mpr ⟨h, by simp [hsel, hord]⟩
  rw [hsplit, length_filter_ne_of_nodup hfnodup hfmem]

theorem degCount_append_zero {α : Type} [DecidableEq α] {w : Workspace α}
    {selected ordered : List α} {n : α} {name : α}
    (h : degCount w selected ordered n = 0) :
    degCount w selected (ordered ++ [name]) n = 0 := by
  unfold degCount at h ⊢
  rw [List.length_eq_zero] at h ⊢
  rw [List.filter_eq_nil] at h ⊢
  intro d hd
  have := h d hd
  simp only [decide_eq_true_eq] at this ⊢
  intro ⟨h1, h2⟩
  exact this ⟨h1, fun hord => h2 (List.mem_append_left _ hord)⟩

/-! #### The decrement pass -/

theorem applyDecrements_keys {α : Type} [LinearOrder α] (selected : List α) :
    ∀ (ds : List α) (indeg : List (α × Nat)) (ready : List α),
      (applyDecrements selected ds indeg ready).1.map Prod.fst =
        indeg.map Prod.fst := by
  intro ds
  induction ds with
  | nil => intro indeg ready; rfl
  | cons d rest ih =>
    intro indeg ready
    unfold applyDecrements
    by_cases hd : d ∈ selected
    · rw [if_pos hd]
      rcases hld : lookupKey d indeg with _ | deg
      · exact ih indeg ready
      · dsimp only
        by_cases h0 : 0 < deg
        · rw [if_pos h0]
          by_cases h1 : deg - 1 = 0
          · rw [if_pos h1, ih, setKey_keys]
          · rw [if_neg h1, ih, setKey_keys]
        · rw [if_neg h0]
          exact ih indeg ready
    · rw [if_neg hd]
      exact ih indeg ready

theorem applyDecrements_lookup {α : Type} [LinearOrder α] {selected : List α} :
    ∀ {ds : List α}, ds.Nodup →
      ∀ {indeg : List (α × Nat)} {ready : List α} {k : α} {deg : Nat},
        lookupKey k indeg = some deg →
        lookupKey k (applyDecrements selected ds indeg ready).1 =
          some (if k ∈ ds ∧ k ∈ selected ∧ 0 < deg then deg - 1 else deg) := by
  intro ds
  induction ds with
  | nil =>
    intro _ indeg ready k deg hk
    unfold applyDecrements
    rw [hk, if_neg (fun hc => absurd hc.1 (List.not_mem_nil k))]
  | cons d rest ih =>
    intro hnodup indeg ready k deg hk
    have hdrest : d ∉ rest := (List.nodup_cons.mp hnodup).1
    have hrest : rest.Nodup := (List.nodup_cons.mp hnodup).2
    unfold applyDecrements
    by_cases hd : d ∈ selected
    · rw [if_pos hd]
      rcases hld : lookupKey d indeg with _ | ddeg
      · have hkd : k ≠ d := fun he => by rw [he, hld] at hk; cases hk
        dsimp only
        rw [ih hrest hk]
        congr 1
        by_cases hcond : k ∈ rest ∧ k ∈ selected ∧ 0 < deg
        · rw [if_pos hcond, if_pos ⟨List.mem_cons_of_mem _ hcond.1, hcond.2⟩]
        · rw [if_neg hcond, if_neg (by
            intro ⟨h1, h2⟩
            rcases List.mem_cons.mp h1 with h1 | h1
            · exact hkd h1
            · exact hcond ⟨h1, h2⟩)]
      · dsimp only
        by_cases h0 : 0 < ddeg
        · rw [if_pos h0]
          by_cases hkd : k = d
          · subst hkd
            have hdeg : ddeg = deg := by rw [hld] at hk; injection hk
            subst hdeg
            have hset : lookupKey k (setKey k (ddeg - 1) indeg) = some (ddeg - 1) :=
              lookupKey_setKey_self hld
            by_cases h1 : ddeg - 1 = 0
            · rw [if_pos h1, ih hrest hset,
                if_neg (by intro ⟨h2, _⟩; exact hdrest h2),
                if_pos ⟨List.mem_cons_self _ _, hd, h0⟩]
            · rw [if_neg h1, ih hrest hset,
                if_neg (by intro ⟨h2, _⟩; exact hdrest h2),
                if_pos ⟨List.mem_cons_self _ _, hd, h0⟩]
          · have hset : lookupKey k (setKey d (ddeg - 1) indeg) = some deg := by
              rw [lookupKey_setKey_other hkd]
              exact hk
            have hmemiff : (k ∈ rest ∧ k ∈ selected ∧ 0 < deg) ↔
                (k ∈ d :: rest ∧ k ∈ selected ∧ 0 < deg) := by
              constructor
              · intro ⟨h1, h2⟩; exact ⟨List.mem_cons_of_mem _ h1, h2⟩
              · intro ⟨h1, h2⟩
                rcases List.mem_cons.mp h1 with h1 | h1
                · exact absurd h1 hkd
                · exact ⟨h1, h2⟩
            by_cases h1 : ddeg - 1 = 0
            · rw [if_pos h1, ih hrest hset]
              congr 1
              by_cases hcond : k ∈ rest ∧ k ∈ selected ∧ 0 < deg
              · rw [if_pos hcond, if_pos (hmemiff.mp hcond)]
              · rw [if_neg hcond, if_neg (fun hc => hcond (hmemiff.mpr hc))]
            · rw [if_neg h1, ih hrest hset]
              congr 1
              by_cases hcond : k ∈ rest ∧ k ∈ selected ∧ 0 < deg
              · rw [if_pos hcond, if_pos (hmemiff.mp hcond)]
              · rw [if_neg hcond, if_neg (fun hc => hcond (hmemiff.mpr hc))]
        · rw [if_neg h0]
          rw [ih hrest hk]
          congr 1
          by_cases hkd : k = d
          · subst hkd
            have hdeg : ddeg = deg := by rw [hld] at hk; injection hk
            subst hdeg
            rw [if_neg (by intro ⟨h1, _⟩; exact hdrest h1),
              if_neg (by intro ⟨_, _, h3⟩; exact h0 h3)]
          · by_cases hcond : k ∈ rest ∧ k ∈ selected ∧ 0 < deg
            · rw [if_pos hcond, if_pos ⟨List.mem_cons_of_mem _ hcond.1, hcond.2⟩]
            · rw [if_neg hcond, if_neg (by
                intro ⟨h1, h2⟩
                rcases List.mem_cons.mp h1 with h1 | h1
                · exact hkd h1
                · exact hcond ⟨h1, h2⟩)]
    · rw [if_neg hd]
      rw [ih hrest hk]
      congr 1
      by_cases hkd : k = d
      · subst hkd
        rw [if_neg (by intro ⟨h1, _⟩; exact hdrest h1),
          if_neg (by intro ⟨_, h2, _⟩; exact hd h2)]
      · by_cases hcond : k ∈ rest ∧ k ∈ selected ∧ 0 < deg
        · rw [if_pos hcond, if_pos ⟨List.mem_cons_of_mem _ hcond.1, hcond.2⟩]
        · rw [if_neg hcond, if_neg (by
            intro ⟨h1, h2⟩
            rcases List.mem_cons.mp h1 with h1 | h1
            · exact hkd h1
            · exact hcond ⟨h1, h2⟩)]

theorem applyDecrements_ready_mem {α : Type} [LinearOrder α] {selected : List α} :
    ∀ {ds : List α}, ds.Nodup →
      ∀ {indeg : List (α × Nat)} {ready : List α} {x : α},
        (x ∈ (applyDecrements selected ds indeg ready).2 ↔
          x ∈ ready ∨ (x ∈ ds ∧ x ∈ selected ∧ lookupKey x indeg = some 1)) := by
  intro ds
  induction ds with
  | nil =>
    intro _ indeg ready x
    simp [applyDecrements]
  | cons d rest ih =>
    intro hnodup indeg ready x
    have hdrest : d ∉ rest := (List.nodup_cons.mp hnodup).1
    have hrest : rest.Nodup := (List.nodup_cons.mp hnodup).2
    unfold applyDecrements
    by_cases hd : d ∈ selected
    · rw [if_pos hd]
      rcases hld : lookupKey d indeg with _ | ddeg
      · dsimp only
        rw [ih hrest]
        constructor
        · rintro (h | ⟨h1, h2, h3⟩)
          · exact Or.inl h
          · exact Or.inr ⟨List.mem_cons_of_mem _ h1, h2, h3⟩
        · rintro (h | ⟨h1, h2, h3⟩)
          · exact Or.inl h
          · rcases List.mem_cons.mp h1 with he | he
            · rw [he, hld] at h3; cases h3
            · exact Or.inr ⟨he, h2, h3⟩
      · dsimp only
        by_cases h0 : 0 < ddeg
        · rw [if_pos h0]
          by_cases h1 : ddeg - 1 = 0
          · rw [if_pos h1]
            have hd1 : ddeg = 1 := by omega
            subst hd1
            rw [ih hrest]
            by_cases hx : x = d
            · subst hx
              constructor
              · intro _
                exact Or.inr ⟨List.mem_cons_self _ _, hd, hld⟩
              · intro _
                exact Or.inl ((List.mem_orderedInsert _).mpr (Or.inl rfl))
            · have hins : x ∈ List.orderedInsert (fun a b => a ≤ b) d ready ↔
                  x ∈ ready := by
                rw [List.mem_orderedInsert]
                constructor
                · rintro (he | he)
                  · exact absurd he hx
                  · exact he
                · exact Or.inr
              rw [hins, lookupKey_setKey_other hx]
              constructor
              · rintro (h | ⟨h2, h3, h4⟩)
                · exact Or.inl h
                · exact Or.inr ⟨List.mem_cons_of_mem _ h2, h3, h4⟩
              · rintro (h | ⟨h2, h3, h4⟩)
                · exact Or.inl h
                · rcases List.mem_cons.mp h2 with he | he
                  · exact absurd he hx
                  · exact Or.inr ⟨he, h3, h4⟩
          · rw [if_neg h1]
            rw [ih hrest]
            by_cases hx : x = d
            · subst hx
              rw [lookupKey_setKey_self hld]
              constructor
              · rintro (h | ⟨h2, _, _⟩)
                · exact Or.inl h
                · exact absurd h2 hdrest
              · rintro (h | ⟨_, _, h4⟩)
                · exact Or.inl h
                · rw [hld] at h4
                  have : ddeg = 1 := by injection h4
                  omega
            · rw [lookupKey_setKey_other hx]
              constructor
              · rintro (h | ⟨h2, h3, h4⟩)
                · exact Or.inl h
                · exact Or.inr ⟨List.mem_cons_of_mem _ h2, h3, h4⟩
              · rintro (h | ⟨h2, h3, h4⟩)
                · exact Or.inl h
                · rcases List.mem_cons.mp h2 with he | he
                  · exact absurd he hx
                  · exact Or.inr ⟨he, h3, h4⟩
        · rw [if_neg h0]
          have hd0 : ddeg = 0 := by omega
          subst hd0
          rw [ih hrest]
          constructor
          · rintro (h | ⟨h2, h3, h4⟩)
            · exact Or.inl h
            · exact Or.inr ⟨List.mem_cons_of_mem _ h2, h3, h4⟩
          · rintro (h | ⟨h2, h3, h4⟩)
            · exact Or.inl h
            · rcases List.mem_cons.mp h2 with he | he
              · rw [he, hld] at h4
                cases h4
              · exact Or.inr ⟨he, h3, h4⟩
    · rw [if_neg hd]
      rw [ih hrest]
      constructor
      · rintro (h | ⟨h2, h3, h4⟩)
        · exact Or.inl h
        · exact Or.inr ⟨List.mem_cons_of_mem _ h2, h3, h4⟩
      · rintro (h | ⟨h2, h3, h4⟩)
        · exact Or.inl h
        · rcases List.mem_cons.mp h2 with he | he
          · rw [he] at h3
            exact absurd h3 hd
          · exact Or.inr ⟨he, h3, h4⟩

theorem applyDecrements_ready_nodup {α : Type} [LinearOrder α] {selected : List α} :
    ∀ {ds : List α}, ds.Nodup →
      ∀ {indeg : List (α × Nat)} {ready : List α},
        ready.Nodup →
        (∀ x ∈ ds, x ∈ selected → ∀ k, lookupKey x indeg = some k → 0 < k →
          x ∉ ready) →
        (applyDecrements selected ds indeg ready).2.Nodup := by
  intro ds
  induction ds with
  | nil =>
    intro _ indeg ready hready _
    exact hready
  | cons d rest ih =>
    intro hnodup indeg ready hready hcond
    have hdrest : d ∉ rest := (List.nodup_cons.mp hnodup).1
    have hrest : rest.Nodup := (List.nodup_cons.mp hnodup).2
    unfold applyDecrements
    by_cases hd : d ∈ selected
    · rw [if_pos hd]
      rcases hld : lookupKey d indeg with _ | ddeg
      · dsimp only
        refine ih hrest hready ?_
        intro x hx hxsel k hk h0
        exact hcond x (List.mem_cons_of_mem _ hx) hxsel k hk h0
      · dsimp only
        by_cases h0 : 0 < ddeg
        · rw [if_pos h0]
          by_cases h1 : ddeg - 1 = 0
          · rw [if_pos h1]
            have hd1 : ddeg = 1 := by omega
            subst hd1
            have hdready : d ∉ ready :=
              hcond d (List.mem_cons_self _ _) hd 1 hld Nat.one_pos
            refine ih hrest (nodup_orderedInsert hdready hready) ?_
            intro x hx hxsel k hk hkpos
            have hxd : x ≠ d := fun he => hdrest (he ▸ hx)
            rw [lookupKey_setKey_other hxd] at hk
            have hxready : x ∉ ready :=
              hcond x (List.mem_cons_of_mem _ hx) hxsel k hk hkpos
            rw [List.mem_orderedInsert]
            rintro (he | he)
            · exact hxd he
            · exact hxready he
          · rw [if_neg h1]
            refine ih hrest hready ?_
            intro x hx hxsel k hk hkpos
            have hxd : x ≠ d := fun he => hdrest (he ▸ hx)
            rw [lookupKey_setKey_other hxd] at hk
            exact hcond x (List.mem_cons_of_mem _ hx) hxsel k hk hkpos
        · rw [if_neg h0]
          refine ih hrest hready ?_
          intro x hx hxsel k hk hkpos
          exact hcond x (List.mem_cons_of_mem _ hx) hxsel k hk hkpos
    · rw [if_neg hd]
      refine ih hrest hready ?_
      intro x hx hxsel k hk hkpos
      exact hcond x (List.mem_cons_of_mem _ hx) hxsel k hk hkpos

/-! #### The loop invariant -/

theorem degCount_zero_of_all_mem {α : Type} [DecidableEq α] {w : Workspace α}
    {selected ordered : List α} {a : α}
    (h : ∀ d ∈ w.dependencies a, d ∈ selected → d ∈ ordered) :
    degCount w selected ordered a = 0 := by
  unfold degCount
  rw [List.length_eq_zero, List.filter_eq_nil_iff]
  intro d hd
  simp only [decide_eq_true_eq]
  rintro ⟨h1, h2⟩
  exact h2 (h d hd h1)

/-- The invariant of the `while` loop of `topological_order`: the indegree
map is keyed exactly by `selected` and holds the count of unemitted
intra-selected dependencies, `ready` holds exactly the unemitted selected
names of count zero, and every emitted name's intra-selected dependencies
were emitted strictly before it. -/
def TopoInv {α : Type} [DecidableEq α] (w : Workspace α) (selected : List α)
    (indeg : List (α × Nat)) (ready ordered : List α) : Prop :=
  indeg.map Prod.fst = selected ∧
  ordered.Nodup ∧
  (∀ x ∈ ordered, x ∈ selected) ∧
  (∀ n ∈ selected, lookupKey n indeg = some (degCount w selected ordered n)) ∧
  ready.Nodup ∧
  (∀ x, x ∈ ready ↔ (x ∈ selected ∧ x ∉ ordered ∧
    degCount w selected ordered x = 0)) ∧
  (∀ a ∈ ordered, ∀ d ∈ w.dependencies a, d ∈ selected →
    ∃ l₁ l₂, ordered = l₁ ++ a :: l₂ ∧ d ∈ l₁)

theorem topoInv_step {α : Type} [LinearOrder α] {w : Workspace α}
    {selected : List α} {indeg : List (α × Nat)} {name : α}
    {rest ordered : List α}
    (hdeps : ∀ n, (w.dependencies n).Nodup)
    (hdepd : ∀ n, (w.dependents n).Nodup)
    (hrecip : ∀ a b, a ∈ w.dependents b ↔ b ∈ w.dependencies a)
    (hInv : TopoInv w selected indeg (name :: rest) ordered) :
    TopoInv w selected
      (applyDecrements selected (w.dependents name) indeg rest).1
      (applyDecrements selected (w.dependents name) indeg rest).2
      (ordered ++ [name]) := by
  obtain ⟨hkeys, hordnd, hordsub, hlook, hrnd, hrmem, hI5⟩ := hInv
  obtain ⟨hnsel, hnord, hncnt⟩ := (hrmem name).mp (List.mem_cons_self _ _)
  have hnamerest : name ∉ rest := (List.nodup_cons.mp hrnd).1
  have hrestnd : rest.Nodup := (List.nodup_cons.mp hrnd).2
  have hordzero : ∀ a ∈ ordered, degCount w selected ordered a = 0 := by
    intro a ha
    apply degCount_zero_of_all_mem
    intro d hd hdsel
    obtain ⟨l₁, l₂, hsp, hdl⟩ := hI5 a ha d hd hdsel
    rw [hsp]
    exact List.mem_append_left _ hdl
  refine ⟨?_, ?_, ?_, ?_, ?_, ?_, ?_⟩
  · rw [applyDecrements_keys]
    exact hkeys
  · rw [List.nodup_append]
    exact ⟨hordnd, List.nodup_singleton _, fun x hx hx1 => by
      rw [List.mem_singleton.mp hx1] at hx
      exact hnord hx⟩
  · intro x hx
    rcases List.mem_append.mp hx with h | h
    · exact hordsub x h
    · rw [List.mem_singleton.mp h]
      exact hnsel
  · intro n hn
    rw [applyDecrements_lookup (hdepd name) (hlook n hn)]
    by_cases hnd : name ∈ w.dependencies n
    · have hdep : n ∈ w.dependents name := (hrecip n name).mpr hnd
      have hcnt := degCount_append_mem (hdeps n) hnd hnsel hnord
      rw [if_pos ⟨hdep, hn, by omega⟩]
      congr 1
      omega
    · have hdep : n ∉ w.dependents name := fun hc => hnd ((hrecip n name).mp hc)
      rw [if_neg (fun hc => hdep hc.1),
        degCount_append_not_mem hnd]
  · refine applyDecrements_ready_nodup (hdepd name) hrestnd ?_
    intro x _ hxsel k hk _ hxrest
    obtain ⟨_, _, hxcnt⟩ := (hrmem x).mp (List.mem_cons_of_mem _ hxrest)
    rw [hlook x hxsel, hxcnt] at hk
    have : k = 0 := by injection hk; omega
    omega
  · intro x
    rw [applyDecrements_ready_mem (hdepd name)]
    constructor
    · rintro (hx | ⟨hxdep, hxsel, hx1⟩)
      · obtain ⟨h1, h2, h3⟩ := (hrmem x).mp (List.mem_cons_of_mem _ hx)
        refine ⟨h1, ?_, degCount_append_zero h3⟩
        intro hc
        rcases List.mem_append.mp hc with h | h
        · exact h2 h
        · rw [List.mem_singleton.mp h] at hx
          exact hnamerest hx
      · have hnd : name ∈ w.dependencies x := (hrecip x name).mp hxdep
        have hcx : degCount w selected ordered x = 1 := by
          have := hlook x hxsel
          rw [hx1] at this
          injection this with h
          omega
        have hxord : x ∉ ordered := by
          intro hc
          rw [hordzero x hc] at hcx
          cases hcx
        have hxname : x ≠ name := by
          intro he
          rw [he, hncnt] at hcx
          cases hcx
        have hcnt := degCount_append_mem (hdeps x) hnd hnsel hnord
        refine ⟨hxsel, ?_, by omega⟩
        intro hc
        rcases List.mem_append.mp hc with h | h
        · exact hxord h
        · exact hxname (List.mem_singleton.mp h)
    · rintro ⟨hxsel, hxord', hxcnt'⟩
      have hxname : x ≠ name := by
        intro he
        exact hxord' (he ▸ List.mem_append_right _ (List.mem_singleton_self _))
      have hxord : x ∉ ordered := fun hc => hxord' (List.mem_append_left _ hc)
      by_cases hnd : name ∈ w.dependencies x
      · have hcnt := degCount_append_mem (hdeps x) hnd hnsel hnord
        refine Or.inr ⟨(hrecip x name).mpr hnd, hxsel, ?_⟩
        rw [hlook x hxsel]
        congr 1
        omega
      · rw [degCount_append_not_mem hnd] at hxcnt'
        have hx : x ∈ name :: rest := (hrmem x).mpr ⟨hxsel, hxord, hxcnt'⟩
        rcases List.mem_cons.mp hx with h | h
        · exact absurd h hxname
        · exact Or.inl h
  · intro a ha d hd hdsel
    rcases List.mem_append.mp ha with h | h
    · obtain ⟨l₁, l₂, hsp, hdl⟩ := hI5 a h d hd hdsel
      exact ⟨l₁, l₂ ++ [name], by rw [hsp, List.append_assoc]; rfl, hdl⟩
    · rw [List.mem_singleton.mp h] at hd ⊢
      exact ⟨ordered, [], rfl, degCount_zero_mem hncnt hd hdsel⟩

theorem topoLoop_spec {α : Type} [LinearOrder α] {w : Workspace α}
    {selected : List α}
    (hdeps : ∀ n, (w.dependencies n).Nodup)
    (hdepd : ∀ n, (w.dependents n).Nodup)
    (hrecip : ∀ a b, a ∈ w.dependents b ↔ b ∈ w.dependencies a) :
    ∀ (fuel : Nat) (indeg : List (α × Nat)) (ready ordered : List α),
      TopoInv w selected indeg ready ordered →
      ∃ indeg' ready',
        TopoInv w selected indeg' ready'
          (topoLoop w selected fuel indeg ready ordered) ∧
        (ready' = [] ∨
          (topoLoop w selected fuel indeg ready ordered).length =
            ordered.length + fuel) := by
  intro fuel
  induction fuel with
  | zero =>
    intro indeg ready ordered hInv
    exact ⟨indeg, ready, hInv, Or.inr (by simp [topoLoop])⟩
  | succ fuel ih =>
    intro indeg ready ordered hInv
    rcases ready with _ | ⟨name, rest⟩
    · exact ⟨indeg, [], hInv, Or.inl rfl⟩
    · simp only [topoLoop]
      obtain ⟨indeg', ready', hInv', hlen⟩ :=
        ih (applyDecrements selected (w.dependents name) indeg rest).1
          (applyDecrements selected (w.dependents name) indeg rest).2
          (ordered ++ [name]) (topoInv_step hdeps hdepd hrecip hInv)
      refine ⟨indeg', ready', hInv', ?_⟩
      rcases hlen with h | h
      · exact Or.inl h
      · refine Or.inr ?_
        rw [h, List.length_append, List.length_singleton]
        omega

/-! #### Index-order lemmas -/

theorem indexOf_append_cons_self {α : Type} [DecidableEq α] {a : α} :
    ∀ {l₁ : List α} (l₂ : List α), a ∉ l₁ →
      (l₁ ++ a :: l₂).indexOf a = l₁.length := by
  intro l₁
  induction l₁ with
  | nil =>
    intro l₂ _
    simp [List.indexOf_cons_self]
  | cons x xs ih =>
    intro l₂ hna
    have hax : a ≠ x := fun he => hna (he ▸ List.mem_cons_self _ _)
    have hxs : a ∉ xs := fun hm => hna (List.mem_cons_of_mem _ hm)
    rw [List.cons_append, List.indexOf_cons_ne _ (Ne.symm hax), ih l₂ hxs,
      List.length_cons]

theorem indexOf_append_left {α : Type} [DecidableEq α] {b : α} :
    ∀ {l₁ : List α} (l₂ : List α), b ∈ l₁ →
      (l₁ ++ l₂).indexOf b = l₁.indexOf b := by
  intro l₁
  induction l₁ with
  | nil => intro l₂ h; cases h
  | cons x xs ih =>
    intro l₂ hb
    by_cases hbx : b = x
    · subst hbx
      rw [List.cons_append, List.indexOf_cons_self, List.indexOf_cons_self]
    · have hbxs : b ∈ xs := by
        rcases List.mem_cons.mp hb with h | h
        · exact absurd h hbx
        · exact h
      rw [List.cons_append, List.indexOf_cons_ne _ (Ne.symm hbx),
        List.indexOf_cons_ne _ (Ne.symm hbx), ih l₂ hbxs]

theorem indexOf_lt_of_split {α : Type} [DecidableEq α] {l l₁ l₂ : List α}
    {a b : α} (hnd : l.Nodup) (hsp : l = l₁ ++ a :: l₂) (hb : b ∈ l₁) :
    l.indexOf b < l.indexOf a := by
  subst hsp
  have hna : a ∉ l₁ := by
    rw [List.nodup_append] at hnd
    intro hc
    exact hnd.2.2 hc (List.mem_cons_self _ _)
  rw [indexOf_append_cons_self _ hna,
    indexOf_append_left _ hb]
  exact List.indexOf_lt_length.mpr hb

theorem topoInv_init {α : Type} [LinearOrder α] (w : Workspace α)
    {selected : List α} (hsel : selected.Nodup) :
    TopoInv w selected (initIndegree w selected)
      (((initIndegree w selected).filter (fun p => p.2 = 0)).map (·.1)) [] := by
  have hkeys : (initIndegree w selected).map Prod.fst = selected := by
    unfold initIndegree
    rw [List.map_map]
    exact List.map_id _
  refine ⟨hkeys, List.nodup_nil, ?_, ?_, ?_, ?_, ?_⟩
  · intro x hx
    cases hx
  · intro n hn
    unfold initIndegree
    rw [lookupKey_map_of_mem hn, degCount_nil]
  · have h1 : List.Sublist ((initIndegree w selected).filter (fun p => p.2 = 0))
        (initIndegree w selected) := List.filter_sublist _
    have h2 := h1.map (fun (p : α × Nat) => p.1)
    have hkeys' : (initIndegree w selected).map (fun (p : α × Nat) => p.1) =
        selected := hkeys
    rw [hkeys'] at h2
    exact List.Nodup.sublist h2 hsel
  · intro x
    constructor
    · intro hx
      rw [List.mem_map] at hx
      obtain ⟨p, hpf, hpx⟩ := hx
      rw [List.mem_filter] at hpf
      obtain ⟨hpi, hp0⟩ := hpf
      unfold initIndegree at hpi
      rw [List.mem_map] at hpi
      obtain ⟨n, hn, hnp⟩ := hpi
      rw [← hnp] at hpx hp0
      simp only [decide_eq_true_eq] at hp0
      dsimp only at hpx hp0
      subst hpx
      exact ⟨hn, List.not_mem_nil n, by rw [degCount_nil]; exact hp0⟩
    · rintro ⟨hxsel, _, hxcnt⟩
      rw [degCount_nil] at hxcnt
      rw [List.mem_map]
      refine ⟨(x, ((w.dependencies x).filter
        (fun d => decide (d ∈ selected))).length), ?_, rfl⟩
      rw [List.mem_filter]
      constructor
      · unfold initIndegree
        exact List.mem_map_of_mem _ hxsel
      · simp [hxcnt]
  · intro a ha
    cases ha

/-! #### The dependency relation restricted to the selection -/

/-- The edge relation of the selected subgraph: `a` depends on `b` with both
names selected. -/
def edgeS {α : Type} (w : Workspace α) (selected : List α) (a b : α) : Prop :=
  b ∈ w.dependencies a ∧ a ∈ selected ∧ b ∈ selected

theorem transGen_indexOf_lt {α : Type} [DecidableEq α] {w : Workspace α}
    {selected ordered : List α} (hnd : ordered.Nodup)
    (hall : ∀ x ∈ selected, x ∈ ordered)
    (hI5 : ∀ a ∈ ordered, ∀ d ∈ w.dependencies a, d ∈ selected →
      ∃ l₁ l₂, ordered = l₁ ++ a :: l₂ ∧ d ∈ l₁) :
    ∀ {x y}, Relation.TransGen (edgeS w selected) x y →
      ordered.indexOf y < ordered.indexOf x := by
  have hstep : ∀ {a b}, edgeS w selected a b →
      ordered.indexOf b < ordered.indexOf a := by
    rintro a b ⟨hdep, hasel, hbsel⟩
    obtain ⟨l₁, l₂, hsp, hb⟩ := hI5 a (hall a hasel) b hdep hbsel
    exact indexOf_lt_of_split hnd hsp hb
  intro x y h
  induction h with
  | single he => exact hstep he
  | tail _ he ih => exact lt_trans (hstep he) ih

theorem topoInv_complete {α : Type} [DecidableEq α] {w : Workspace α}
    {selected : List α} {indeg : List (α × Nat)} {ordered : List α}
    (hacyc : ∀ x, ¬ Relation.TransGen (edgeS w selected) x x)
    (hInv : TopoInv w selected indeg [] ordered) :
    ∀ u ∈ selected, u ∈ ordered := by
  classical
  obtain ⟨_, _, _, _, _, hrmem, _⟩ := hInv
  have hstep : ∀ u, u ∈ selected → u ∉ ordered →
      ∃ d, d ∈ w.dependencies u ∧ d ∈ selected ∧ d ∉ ordered := by
    intro u husel huord
    by_contra hno
    apply List.not_mem_nil u
    apply (hrmem u).mpr
    refine ⟨husel, huord, ?_⟩
    apply degCount_zero_of_all_mem
    intro d hd hdsel
    by_contra hdord
    exact hno ⟨d, hd, hdsel, hdord⟩
  by_contra hnall
  push_neg at hnall
  obtain ⟨u₀, hu₀sel, hu₀ord⟩ := hnall
  choose! g hg1 hg2 hg3 using hstep
  have hg : ∀ u, u ∈ selected → u ∉ ordered →
      g u ∈ w.dependencies u ∧ g u ∈ selected ∧ g u ∉ ordered :=
    fun u h1 h2 => ⟨hg1 u h1 h2, hg2 u h1 h2, hg3 u h1 h2⟩
  have hP : ∀ k, g^[k] u₀ ∈ selected ∧ g^[k] u₀ ∉ ordered := by
    intro k
    induction k with
    | zero => exact ⟨hu₀sel, hu₀ord⟩
    | succ k ih =>
      rw [Function.iterate_succ_apply']
      obtain ⟨h1, h2⟩ := ih
      obtain ⟨_, h3, h4⟩ := hg _ h1 h2
      exact ⟨h3, h4⟩
  have hedge : ∀ k, edgeS w selected (g^[k] u₀) (g^[k + 1] u₀) := by
    intro k
    rw [Function.iterate_succ_apply']
    obtain ⟨h1, h2⟩ := hP k
    obtain ⟨h3, h4, _⟩ := hg _ h1 h2
    exact ⟨h3, h1, h4⟩
  have hchain : ∀ i j, i < j →
      Relation.TransGen (edgeS w selected) (g^[i] u₀) (g^[j] u₀) := by
    intro i j hij
    refine Nat.le_induction ?_ ?_ j hij
    · exact Relation.TransGen.single (hedge i)
    · intro n _ ihn
      exact Relation.TransGen.tail ihn (hedge n)
  have hcard : (selected.toFinset).card <
      (Finset.range (selected.length + 1)).card := by
    rw [Finset.card_range]
    exact Nat.lt_succ_of_le (List.toFinset_card_le selected)
  have hmaps : ∀ k ∈ Finset.range (selected.length + 1),
      g^[k] u₀ ∈ selected.toFinset := by
    intro k _
    exact List.mem_toFinset.mpr (hP k).1
  obtain ⟨i, _, j, _, hij, heq⟩ :=
    Finset.exists_ne_map_eq_of_card_lt_of_maps_to hcard hmaps
  rcases Nat.lt_or_ge i j with h | h
  · have hc := hchain i j h
    rw [← heq] at hc
    exact hacyc _ hc
  · have h2 : j < i := by omega
    have hc := hchain j i h2
    rw [heq] at hc
    exact hacyc _ hc

theorem topological_order_eq {α : Type} [LinearOrder α] (w : Workspace α)
    (selected : List α) :
    topological_order w selected =
      if (topoLoop w selected selected.length (initIndegree w selected)
          (((initIndegree w selected).filter (fun p => p.2 = 0)).map (·.1))
          []).length = selected.length
      then .ok (topoLoop w selected selected.length (initIndegree w selected)
          (((initIndegree w selected).filter (fun p => p.2 = 0)).map (·.1)) [])
      else .error ⟨.conflict, .cycleDetected⟩ := rfl

/-- C4: for every workspace whose recorded dependency graph restricted to a
duplicate-free selected set is acyclic, `topological_order` returns `Ok` with
a permutation of the selected names in which every dependency precedes each
of its selected dependents (for every edge `a` depends-on `b` with both
selected, `b`'s index is less than `a`'s); and when the restriction contains
a cycle, it fails with the `Conflict` cycle error. The workspace hypotheses
say the per-name dependency and dependent lists are duplicate-free and
mutually reciprocal, as `Workspace::from_path` builds them. -/
theorem topological_order_correct {α : Type} [LinearOrder α]
    (w : Workspace α) (selected : List α)
    (hsel : selected.Nodup)
    (hdeps : ∀ n, (w.dependencies n).Nodup)
    (hdepd : ∀ n, (w.dependents n).Nodup)
    (hrecip : ∀ a b, a ∈ w.dependents b ↔ b ∈ w.dependencies a) :
    ((∀ x, ¬ Relation.TransGen (edgeS w selected) x x) →
      ∃ l, topological_order w selected = .ok l ∧ l.Perm selected ∧
        ∀ a b, b ∈ w.dependencies a → a ∈ selected → b ∈ selected →
          l.indexOf b < l.indexOf a) ∧
    ((∃ x, Relation.TransGen (edgeS w selected) x x) →
      topological_order w selected = .error ⟨.conflict, .cycleDetected⟩) := by
  obtain ⟨indeg', ready', hfin, hlen⟩ :=
    topoLoop_spec hdeps hdepd hrecip selected.length (initIndegree w selected)
      (((initIndegree w selected).filter (fun p => p.2 = 0)).map (·.1)) []
      (topoInv_init w hsel)
  rw [topological_order_eq w selected]
  set L := topoLoop w selected selected.length (initIndegree w selected)
    (((initIndegree w selected).filter (fun p => p.2 = 0)).map (·.1)) [] with hL
  have hfin' := hfin
  obtain ⟨hkeys, hLnd, hLsub, hlook, hrnd', hrmem, hI5⟩ := hfin'
  have hsubL : L ⊆ selected := fun x hx => hLsub x hx
  have hspL : L.Subperm selected := List.Nodup.subperm hLnd hsubL
  constructor
  · intro hacyc
    have hall : ∀ u ∈ selected, u ∈ L := by
      rcases hlen with h | h
      · rw [h] at hfin
        exact topoInv_complete hacyc hfin
      · have hLlen : L.length = selected.length := by
          rw [h, List.length_nil, Nat.zero_add]
        have hperm : L.Perm selected :=
          hspL.perm_of_length_le (le_of_eq hLlen.symm)
        intro u hu
        exact hperm.mem_iff.mpr hu
    have hsubS : selected ⊆ L := fun u hu => hall u hu
    have hspS : selected.Subperm L := List.Nodup.subperm hsel hsubS
    have hlen2 : L.length = selected.length :=
      Nat.le_antisymm hspL.length_le hspS.length_le
    have hperm : L.Perm selected := hspL.perm_of_length_le (le_of_eq hlen2.symm)
    rw [if_pos hlen2]
    refine ⟨L, rfl, hperm, ?_⟩
    intro a b hdep hasel hbsel
    obtain ⟨l₁, l₂, hsp, hb⟩ := hI5 a (hall a hasel) b hdep hbsel
    exact indexOf_lt_of_split hLnd hsp hb
  · rintro ⟨x, hcyc⟩
    by_cases hl : L.length = selected.length
    · exfalso
      have hperm : L.Perm selected := hspL.perm_of_length_le (le_of_eq hl.symm)
      have hall : ∀ u ∈ selected, u ∈ L := fun u hu => hperm.mem_iff.mpr hu
      exact lt_irrefl _ (transGen_indexOf_lt hLnd hall hI5 hcyc)
    · rw [if_neg hl]

/-- A two-package workspace whose selected graph is acyclic: package `2`
depends on package `1`. -/
def wDagW : Workspace Nat where
  root := []
  packages := [⟨1, []⟩, ⟨2, []⟩]
  dependencies := fun n => match n with | 2 => [1] | _ => []
  dependents := fun n => match n with | 1 => [2] | _ => []

/-- A two-package workspace whose selected graph is a cycle: packages `1`
and `2` depend on each other. -/
def wCycW : Workspace Nat where
  root := []
  packages := [⟨1, []⟩, ⟨2, []⟩]
  dependencies := fun n => match n with | 1 => [2] | 2 => [1] | _ => []
  dependents := fun n => match n with | 1 => [2] | 2 => [1] | _ => []

theorem topological_order_correct_witness :
    (∃ l, topological_order wDagW [1, 2] = .ok l ∧ l.Perm [1, 2] ∧
      ∀ a b, b ∈ wDagW.dependencies a → a ∈ [1, 2] → b ∈ [1, 2] →
        l.indexOf b < l.indexOf a) ∧
    topological_order wCycW [1, 2] = .error ⟨.conflict, .cycleDetected⟩ := by
  have honly : ∀ a b, edgeS wDagW [1, 2] a b → a = 2 ∧ b = 1 := by
    rintro a b ⟨hdep, hasel, hbsel⟩
    rcases List.mem_cons.mp hasel with h | h
    · subst h
      simp [wDagW] at hdep
    · rw [List.mem_singleton.mp h] at hdep ⊢
      simp [wDagW] at hdep
      exact ⟨rfl, hdep⟩
  have hacyc : ∀ x, ¬ Relation.TransGen (edgeS wDagW [1, 2]) x x := by
    have hreach : ∀ a b, Relation.TransGen (edgeS wDagW [1, 2]) a b →
        a = 2 ∧ b = 1 := by
      intro a b h
      induction h with
      | single he => exact honly _ _ he
      | tail _ he ih => exact ⟨ih.1, (honly _ _ he).2⟩
    intro x h
    obtain ⟨h1, h2⟩ := hreach x x h
    rw [h1] at h2
    cases h2
  have hcyc : Relation.TransGen (edgeS wCycW [1, 2]) 1 1 := by
    have h12 : Relation.TransGen (edgeS wCycW [1, 2]) 1 2 :=
      Relation.TransGen.single ⟨by decide, by decide, by decide⟩
    exact h12.tail ⟨by decide, by decide, by decide⟩
  constructor
  · exact (topological_order_correct wDagW [1, 2] (by decide)
      (fun n => by rcases n with _ | _ | _ | n <;> first | decide | simp [wDagW] | simp [wCycW])
      (fun n => by rcases n with _ | _ | _ | n <;> first | decide | simp [wDagW] | simp [wCycW])
      (fun a b => by
        rcases a with _ | _ | _ | a <;> rcases b with _ | _ | _ | b <;>
          simp [wDagW] <;> omega)).1 hacyc
  · exact (topological_order_correct wCycW [1, 2] (by decide)
      (fun n => by rcases n with _ | _ | _ | n <;> first | decide | simp [wDagW] | simp [wCycW])
      (fun n => by rcases n with _ | _ | _ | n <;> first | decide | simp [wDagW] | simp [wCycW])
      (fun a b => by
        rcases a with _ | _ | _ | a <;> rcases b with _ | _ | _ | b <;>
          simp [wCycW] <;> omega)).2 ⟨1, hcyc⟩

end Oss

